import Mathlib

/-!
# Verification of the horcrux Shamir secret sharing library

This file gives a shallow embedding in Lean 4 of the core of the horcrux
library: the generic binary-field layer `GF2n<W, NWORDS, A, B, C>`
(`src/horcrux/src/gf2n.rs`), the Shamir split/reconstruct code
(`src/horcrux/src/shamir.rs`), and the share parser, together with proofs
of the testable properties stated in the specification.

Machine words of width `wb` are embedded as natural numbers `< 2 ^ wb`;
a field element is the list of its `m` words, word 0 least significant.
Rust's wrapping shift `d << s` on a `wb`-bit word becomes
`(d <<< s) % 2 ^ wb`, and `^` becomes `Nat.xor`.

The first part develops carryless (GF(2)[x]) arithmetic on `ℕ`:
`cmul` is polynomial multiplication over GF(2) of bit-vectors, and
`polyMod` is polynomial remainder.  Every bit-level routine of the Rust
source is then related to this reference semantics.
-/

namespace Horcrux

/-! ## Bit-level helper lemmas on ℕ -/

theorem shl_xor (a b k : Nat) : (a ^^^ b) <<< k = (a <<< k) ^^^ (b <<< k) := by
  apply Nat.eq_of_testBit_eq
  intro i
  simp only [Nat.testBit_shiftLeft, Nat.testBit_xor]
  cases decide (i ≥ k) <;> simp

theorem shr_xor (a b k : Nat) : (a ^^^ b) >>> k = (a >>> k) ^^^ (b >>> k) := by
  apply Nat.eq_of_testBit_eq
  intro i
  simp [Nat.testBit_shiftRight, Nat.testBit_xor]

theorem mod_pow_xor (a b k : Nat) : (a ^^^ b) % 2 ^ k = (a % 2 ^ k) ^^^ (b % 2 ^ k) := by
  apply Nat.eq_of_testBit_eq
  intro i
  simp only [Nat.testBit_mod_two_pow, Nat.testBit_xor]
  cases decide (i < k) <;> simp

/-- Splitting a natural into its low `k` bits and the rest. -/
theorem split_low_high (a k : Nat) : a = (a % 2 ^ k) ^^^ ((a >>> k) <<< k) := by
  apply Nat.eq_of_testBit_eq
  intro i
  simp only [Nat.testBit_mod_two_pow, Nat.testBit_xor, Nat.testBit_shiftLeft,
    Nat.testBit_shiftRight]
  by_cases h : i < k
  · simp [h, Nat.not_le.mpr h]
  · simp [h, Nat.not_lt.mp h, Nat.add_sub_cancel' (Nat.not_lt.mp h)]

theorem shl_shr_of_le (a j k : Nat) (h : j ≤ k) : (a <<< j) >>> k = a >>> (k - j) := by
  apply Nat.eq_of_testBit_eq
  intro i
  simp only [Nat.testBit_shiftRight, Nat.testBit_shiftLeft]
  have h1 : k + i ≥ j := le_trans h (Nat.le_add_right k i)
  simp [h1]
  congr 1
  omega

theorem testBit_true_le {a i : Nat} (h : a.testBit i = true) : 2 ^ i ≤ a :=
  Nat.testBit_implies_ge h

theorem lt_pow_of_testBit_false {x L : Nat} (hx : x < 2 ^ (L + 1))
    (hb : x.testBit L = false) : x < 2 ^ L := by
  by_contra hge
  push_neg at hge
  have hdiv : x / 2 ^ L = 1 := by
    have h1 : 1 ≤ x / 2 ^ L := (Nat.le_div_iff_mul_le (Nat.pos_pow_of_pos L two_pos)).mpr
      (by omega)
    have h2 : x / 2 ^ L < 2 := by
      rw [Nat.div_lt_iff_lt_mul (Nat.pos_pow_of_pos L two_pos)]
      have : 2 ^ (L + 1) = 2 * 2 ^ L := by ring
      omega
    omega
  rw [Nat.testBit_to_div_mod, hdiv] at hb
  simp at hb

theorem testBit_top {x L : Nat} (h1 : 2 ^ L ≤ x) (h2 : x < 2 ^ (L + 1)) :
    x.testBit L = true := by
  by_contra hb
  have := lt_pow_of_testBit_false h2 (Bool.not_eq_true _ ▸ hb)
  omega

/-- The xor of two naturals with the same top bit `L` loses that bit. -/
theorem xor_same_top_lt {x y L : Nat} (hx1 : 2 ^ L ≤ x) (hx2 : x < 2 ^ (L + 1))
    (hy1 : 2 ^ L ≤ y) (hy2 : y < 2 ^ (L + 1)) : x ^^^ y < 2 ^ L := by
  apply lt_pow_of_testBit_false (Nat.xor_lt_two_pow hx2 hy2)
  rw [Nat.testBit_xor, testBit_top hx1 hx2, testBit_top hy1 hy2]
  rfl

/-- Xoring a strictly smaller-width value does not change the window
`[2 ^ L, 2 ^ (L + 1))`. -/
theorem xor_small_mem_Ico {x b L : Nat} (hx1 : 2 ^ L ≤ x) (hx2 : x < 2 ^ (L + 1))
    (hb : b < 2 ^ L) : 2 ^ L ≤ x ^^^ b ∧ x ^^^ b < 2 ^ (L + 1) := by
  constructor
  · apply testBit_true_le
    rw [Nat.testBit_xor, testBit_top hx1 hx2,
      Nat.testBit_lt_two_pow hb]
    rfl
  · exact Nat.xor_lt_two_pow hx2 (lt_trans hb (Nat.pow_lt_pow_right one_lt_two (Nat.lt_succ_self L)))

theorem log2_eq_of {n k : Nat} (h1 : 2 ^ k ≤ n) (h2 : n < 2 ^ (k + 1)) :
    Nat.log2 n = k := by
  have hn : n ≠ 0 := by
    have : (0:Nat) < 2 ^ k := Nat.pos_pow_of_pos k two_pos
    omega
  have ha : 2 ^ Nat.log2 n ≤ n := Nat.log2_self_le hn
  have hb : n < 2 ^ (Nat.log2 n + 1) := Nat.lt_log2_self
  have h3 : Nat.log2 n < k + 1 := by
    by_contra hc
    push_neg at hc
    exact absurd (le_trans (Nat.pow_le_pow_right (by norm_num) hc) ha) (by omega)
  have h4 : k < Nat.log2 n + 1 := by
    by_contra hc
    push_neg at hc
    exact absurd (le_trans (Nat.pow_le_pow_right (by norm_num) hc) h1) (by omega)
  omega

theorem le_log2_shl {r : Nat} (hr : r ≠ 0) (s : Nat) :
    2 ^ (Nat.log2 r + s) ≤ r <<< s ∧ r <<< s < 2 ^ (Nat.log2 r + s + 1) := by
  rw [Nat.shiftLeft_eq]
  constructor
  · rw [pow_add]
    exact Nat.mul_le_mul_right _ (Nat.log2_self_le hr)
  · calc r * 2 ^ s < 2 ^ (Nat.log2 r + 1) * 2 ^ s :=
        (Nat.mul_lt_mul_right (Nat.pos_pow_of_pos s two_pos)).mpr Nat.lt_log2_self
    _ = 2 ^ (Nat.log2 r + s + 1) := by ring

theorem log2_shl {r : Nat} (hr : r ≠ 0) (s : Nat) : Nat.log2 (r <<< s) = Nat.log2 r + s :=
  log2_eq_of (le_log2_shl hr s).1 (le_log2_shl hr s).2

theorem testBit_land_pow {a i : Nat} : (a &&& 1 <<< i ≠ 0) ↔ a.testBit i = true := by
  constructor
  · intro h
    by_contra hb
    apply h
    apply Nat.eq_of_testBit_eq
    intro j
    simp only [Nat.testBit_land, Nat.testBit_shiftLeft, Nat.zero_testBit]
    by_cases hj : j = i
    · subst hj
      rw [Bool.not_eq_true] at hb
      rw [hb]
      simp
    · rcases Nat.lt_or_ge j i with hlt | hge
      · simp [Nat.not_le.mpr hlt]
      · have : j - i ≠ 0 := by omega
        rcases Nat.exists_eq_succ_of_ne_zero this with ⟨t, ht⟩
        simp [hge, ht, Nat.testBit_succ]
  · intro h hz
    have : (a &&& 1 <<< i).testBit i = true := by
      simp [Nat.testBit_land, Nat.testBit_shiftLeft, h]
    rw [hz] at this
    simp at this

/-! ## Carryless multiplication on ℕ -/

/-- Carryless product: multiplication of bit-polynomials over GF(2).
This is the reference semantics of the `PCLMULQDQ` instruction and of the
whole multiplication layer. -/
def cmul (a b : Nat) : Nat :=
  if a = 0 then 0
  else (if a % 2 = 1 then b else 0) ^^^ (cmul (a / 2) b) <<< 1
termination_by a
decreasing_by exact Nat.div_lt_self (Nat.pos_of_ne_zero (by assumption)) one_lt_two

theorem cmul_zero_left (b : Nat) : cmul 0 b = 0 := by
  rw [cmul]
  simp

theorem cmul_zero_right (a : Nat) : cmul a 0 = 0 := by
  induction a using Nat.strong_induction_on with
  | _ a ih =>
    rw [cmul]
    by_cases h : a = 0
    · simp [h]
    · rw [ih (a / 2) (Nat.div_lt_self (Nat.pos_of_ne_zero h) one_lt_two)]
      simp [h]

theorem cmul_one_left (b : Nat) : cmul 1 b = b := by
  rw [cmul]
  simp [cmul_zero_left]

/-- Xoring 1 into an even number is the same as adding 1. -/
theorem even_xor_one {x : Nat} (hx : x % 2 = 0) : x ^^^ 1 = x + 1 := by
  apply Nat.eq_of_testBit_eq
  intro i
  rw [Nat.testBit_xor]
  cases i with
  | zero =>
    rw [Nat.testBit_to_div_mod, Nat.testBit_to_div_mod, Nat.testBit_to_div_mod]
    simp only [pow_zero, Nat.div_one]
    have h1 : (x + 1) % 2 = 1 := by omega
    simp [hx, h1]
  | succ j =>
    have h0 : (1:Nat).testBit (j+1) = false := by
      rw [Nat.testBit_to_div_mod]
      have h1 : (1:Nat) / 2 ^ (j+1) = 0 := by
        apply Nat.div_eq_of_lt
        have h2 : (2:Nat) ^ 1 ≤ 2 ^ (j+1) := Nat.pow_le_pow_right (by norm_num) (by omega)
        omega
      simp [h1]
    rw [h0]
    have hdiv : (x + 1) / 2 ^ (j+1) = x / 2 ^ (j+1) := by
      rw [Nat.succ_div]
      have hnd : ¬ 2 ^ (j+1) ∣ (x + 1) := by
        intro hd
        have h2 : (2:Nat) ∣ 2 ^ (j+1) := dvd_pow_self 2 (by omega)
        have h3 := dvd_trans h2 hd
        omega
      simp [hnd]
    rw [Nat.testBit_to_div_mod, Nat.testBit_to_div_mod, hdiv]
    simp

/-- Odd/even decomposition of a natural as a xor. -/
theorem two_mul_div_xor_mod (a : Nat) : a = (2 * (a / 2)) ^^^ (a % 2) := by
  rcases (by omega : a % 2 = 0 ∨ a % 2 = 1) with h | h
  · rw [h, Nat.xor_zero]
    omega
  · rw [h, even_xor_one (by omega)]
    omega

theorem xor_div_two (a b : Nat) : (a ^^^ b) / 2 = a / 2 ^^^ b / 2 := by
  have h1 : ∀ x : Nat, x / 2 = x >>> 1 := fun x => (Nat.shiftRight_one x).symm
  rw [h1, h1, h1, shr_xor]

theorem xor_mod_two (a b : Nat) : (a ^^^ b) % 2 = (a % 2) ^^^ (b % 2) := by
  have := mod_pow_xor a b 1
  simpa using this

theorem xor_mix (p q r s : Nat) : (p ^^^ q) ^^^ (r ^^^ s) = (p ^^^ r) ^^^ (q ^^^ s) := by
  rw [Nat.xor_assoc, Nat.xor_assoc]
  congr 1
  rw [← Nat.xor_assoc, ← Nat.xor_assoc]
  congr 1
  exact Nat.xor_comm q r

/-- Unfolding equation for `cmul` away from zero. -/
theorem cmul_eq {a : Nat} (b : Nat) (h : a ≠ 0) :
    cmul a b = (if a % 2 = 1 then b else 0) ^^^ (cmul (a / 2) b) <<< 1 := by
  conv_lhs => rw [cmul]
  rw [if_neg h]

theorem cmul_xor_left (a a' b : Nat) : cmul (a ^^^ a') b = cmul a b ^^^ cmul a' b := by
  have key : ∀ s a a' : Nat, a + a' ≤ s → cmul (a ^^^ a') b = cmul a b ^^^ cmul a' b := by
    intro s
    induction s using Nat.strong_induction_on with
    | _ s ih =>
      intro a a' hs
      by_cases h : a = 0
      · simp [h, cmul_zero_left]
      by_cases h' : a' = 0
      · simp [h', cmul_zero_left]
      have hrec : cmul (a / 2 ^^^ a' / 2) b = cmul (a / 2) b ^^^ cmul (a' / 2) b := by
        have hlt : a / 2 + a' / 2 < s := by omega
        exact ih (a / 2 + a' / 2) hlt (a / 2) (a' / 2) le_rfl
      by_cases hz : a ^^^ a' = 0
      · have hae : a = a' := by
          have h1 := Nat.xor_cancel_right a' a
          rw [hz] at h1
          simpa using h1.symm
        rw [hz, cmul_zero_left, hae, Nat.xor_self]
      · rw [cmul_eq b hz, cmul_eq b h, cmul_eq b h', xor_div_two, hrec, xor_mod_two,
          shl_xor]
        conv_rhs => rw [xor_mix]
        congr 1
        rcases (by omega : a % 2 = 0 ∨ a % 2 = 1) with hm | hm <;>
          rcases (by omega : a' % 2 = 0 ∨ a' % 2 = 1) with hm' | hm' <;>
          simp [hm, hm']
  exact key (a + a') a a' le_rfl

theorem cmul_two_mul_left (a b : Nat) : cmul (2 * a) b = (cmul a b) <<< 1 := by
  by_cases h : a = 0
  · simp [h, cmul_zero_left]
  · have h2 : 2 * a ≠ 0 := by omega
    have h3 : (2 * a) % 2 = 0 := by omega
    have h4 : (2 * a) / 2 = a := by omega
    rw [cmul_eq b h2, h3, h4]
    simp

theorem cmul_two_pow_left (k b : Nat) : cmul (2 ^ k) b = b <<< k := by
  induction k with
  | zero => simpa using cmul_one_left b
  | succ n ih =>
    have h1 : (2:Nat) ^ (n + 1) = 2 * 2 ^ n := by ring
    rw [h1, cmul_two_mul_left, ih, Nat.shiftLeft_add]

theorem cmul_one_right (a : Nat) : cmul a 1 = a := by
  induction a using Nat.strong_induction_on with
  | _ a ih =>
    by_cases h : a = 0
    · simp [h, cmul_zero_left]
    · rw [cmul_eq 1 h, ih (a / 2) (Nat.div_lt_self (Nat.pos_of_ne_zero h) one_lt_two)]
      have h2 : (a / 2) <<< 1 = 2 * (a / 2) := by
        rw [Nat.shiftLeft_eq]
        ring
      conv_rhs => rw [two_mul_div_xor_mod a]
      rcases (by omega : a % 2 = 0 ∨ a % 2 = 1) with hm | hm <;>
        simp [hm, h2, Nat.xor_comm]

theorem cmul_xor_right (a b b' : Nat) : cmul a (b ^^^ b') = cmul a b ^^^ cmul a b' := by
  induction a using Nat.strong_induction_on with
  | _ a ih =>
    by_cases h : a = 0
    · simp [h, cmul_zero_left]
    · rw [cmul_eq (b ^^^ b') h, cmul_eq b h, cmul_eq b' h,
        ih (a / 2) (Nat.div_lt_self (Nat.pos_of_ne_zero h) one_lt_two), shl_xor]
      conv_rhs => rw [xor_mix]
      congr 1
      rcases (by omega : a % 2 = 0 ∨ a % 2 = 1) with hm | hm <;> simp [hm]

theorem cmul_two_mul_right (a b : Nat) : cmul a (2 * b) = (cmul a b) <<< 1 := by
  induction a using Nat.strong_induction_on with
  | _ a ih =>
    by_cases h : a = 0
    · simp [h, cmul_zero_left]
    · have h2 : 2 * b = b <<< 1 := by
        rw [Nat.shiftLeft_eq]
        ring
      rw [cmul_eq (2 * b) h, cmul_eq b h,
        ih (a / 2) (Nat.div_lt_self (Nat.pos_of_ne_zero h) one_lt_two), shl_xor, h2]
      congr 1
      rcases (by omega : a % 2 = 0 ∨ a % 2 = 1) with hm | hm <;> simp [hm]

theorem cmul_comm (a b : Nat) : cmul a b = cmul b a := by
  induction a using Nat.strong_induction_on with
  | _ a ih =>
    by_cases h : a = 0
    · simp [h, cmul_zero_left, cmul_zero_right]
    · conv_rhs => rw [two_mul_div_xor_mod a]
      rw [cmul_xor_right, cmul_two_mul_right, cmul_eq b h,
        ih (a / 2) (Nat.div_lt_self (Nat.pos_of_ne_zero h) one_lt_two)]
      rcases (by omega : a % 2 = 0 ∨ a % 2 = 1) with hm | hm <;>
        simp [hm, cmul_zero_right, cmul_one_right, Nat.xor_comm]


/-! ## Polynomial remainder on ℕ -/

theorem cmul_shl_left (k q r : Nat) : cmul (q <<< k) r = (cmul q r) <<< k := by
  induction k with
  | zero => simp
  | succ n ih =>
    have h1 : q <<< (n + 1) = 2 * (q <<< n) := by
      rw [Nat.shiftLeft_add q n 1, Nat.shiftLeft_eq (q <<< n) 1, pow_one]
      ring
    rw [h1, cmul_two_mul_left, ih]
    conv_rhs => rw [Nat.shiftLeft_add (cmul q r) n 1]

/-- The interval of the carryless product: top bits add. -/
theorem cmul_mem_Ico {q r : Nat} (hq : q ≠ 0) (hr : r ≠ 0) :
    2 ^ (Nat.log2 q + Nat.log2 r) ≤ cmul q r ∧
      cmul q r < 2 ^ (Nat.log2 q + Nat.log2 r + 1) := by
  induction q using Nat.strong_induction_on with
  | _ q ih =>
    by_cases h2 : q < 2
    · interval_cases q
      · exact absurd rfl hq
      · rw [cmul_one_left]
        have : Nat.log2 1 = 0 := log2_eq_of (by norm_num) (by norm_num)
        refine ⟨?_, ?_⟩
        · rw [this, Nat.zero_add]
          exact Nat.log2_self_le hr
        · rw [this, Nat.zero_add]
          exact Nat.lt_log2_self
    · push_neg at h2
      have hq2 : q / 2 ≠ 0 := by omega
      have hrec := ih (q / 2) (Nat.div_lt_self (by omega) one_lt_two) hq2
      have hlog : Nat.log2 q = Nat.log2 (q / 2) + 1 := by
        conv_lhs => rw [Nat.log2]
        rw [if_pos h2]
      have hshl : 2 ^ (Nat.log2 (q / 2) + Nat.log2 r + 1) ≤ (cmul (q / 2) r) <<< 1 ∧
          (cmul (q / 2) r) <<< 1 < 2 ^ (Nat.log2 (q / 2) + Nat.log2 r + 2) := by
        rw [Nat.shiftLeft_eq, pow_one]
        constructor
        · have := hrec.1
          calc 2 ^ (Nat.log2 (q / 2) + Nat.log2 r + 1)
              = 2 ^ (Nat.log2 (q / 2) + Nat.log2 r) * 2 := by ring
          _ ≤ cmul (q / 2) r * 2 := by omega
        · have := hrec.2
          calc cmul (q / 2) r * 2 < 2 ^ (Nat.log2 (q / 2) + Nat.log2 r + 1) * 2 := by omega
          _ = 2 ^ (Nat.log2 (q / 2) + Nat.log2 r + 2) := by ring
      rw [cmul_eq r (by omega), hlog]
      have harr : Nat.log2 (q / 2) + 1 + Nat.log2 r = Nat.log2 (q / 2) + Nat.log2 r + 1 := by
        omega
      rw [harr]
      rcases (by omega : q % 2 = 0 ∨ q % 2 = 1) with hm | hm

      · rw [if_neg (by omega : ¬ q % 2 = 1), Nat.zero_xor]
        exact ⟨hshl.1, by
          have := hshl.2
          have harr2 : Nat.log2 (q / 2) + Nat.log2 r + 1 + 1 =
            Nat.log2 (q / 2) + Nat.log2 r + 2 := by omega
          rw [harr2]
          exact this⟩
      · rw [if_pos hm]
        have hrlt : r < 2 ^ (Nat.log2 (q / 2) + Nat.log2 r + 1) := by
          have h3 : Nat.log2 r + 1 ≤ Nat.log2 (q / 2) + Nat.log2 r + 1 := by omega
          exact lt_of_lt_of_le Nat.lt_log2_self (Nat.pow_le_pow_right (by norm_num) h3)
        have := xor_small_mem_Ico hshl.1 (by
          have harr2 : Nat.log2 (q / 2) + Nat.log2 r + 1 + 1 =
            Nat.log2 (q / 2) + Nat.log2 r + 2 := by omega
          rw [harr2]
          exact hshl.2) hrlt
        rw [Nat.xor_comm r ((cmul (q / 2) r) <<< 1)]
        have harr2 : Nat.log2 (q / 2) + Nat.log2 r + 1 + 1 =
          Nat.log2 (q / 2) + Nat.log2 r + 2 := by omega
        rw [harr2] at this ⊢
        exact this

theorem cmul_ge {q r : Nat} (hq : q ≠ 0) (hr : r ≠ 0) : 2 ^ Nat.log2 r ≤ cmul q r := by
  have h := (cmul_mem_Ico hq hr).1
  exact le_trans (Nat.pow_le_pow_right (by norm_num) (by omega)) h

/-- One cancellation step decreases the value. -/
theorem polyMod_step_lt {v r : Nat} (hr : r ≠ 0) (hv : ¬ v < 2 ^ Nat.log2 r) :
    v ^^^ (r <<< (Nat.log2 v - Nat.log2 r)) < v := by
  push_neg at hv
  have hv0 : v ≠ 0 := by
    have : (0:Nat) < 2 ^ Nat.log2 r := Nat.pos_pow_of_pos _ two_pos
    omega
  have hle : Nat.log2 r ≤ Nat.log2 v := by
    have h1 : 2 ^ Nat.log2 r ≤ v := hv
    have h2 : v < 2 ^ (Nat.log2 v + 1) := Nat.lt_log2_self
    have h3 : (2:Nat) ^ Nat.log2 r < 2 ^ (Nat.log2 v + 1) := lt_of_le_of_lt h1 h2
    have := (Nat.pow_lt_pow_iff_right (by norm_num : 1 < 2)).mp h3
    omega
  set d := Nat.log2 v - Nat.log2 r with hd
  have hds : Nat.log2 r + d = Nat.log2 v := by omega
  have hshl := le_log2_shl hr d
  rw [hds] at hshl
  have hvmem : 2 ^ Nat.log2 v ≤ v ∧ v < 2 ^ (Nat.log2 v + 1) :=
    ⟨Nat.log2_self_le hv0, Nat.lt_log2_self⟩
  have := xor_same_top_lt hvmem.1 hvmem.2 hshl.1 hshl.2
  exact lt_of_lt_of_le this hvmem.1

/-- Remainder of the bit-polynomial `v` modulo the bit-polynomial `r`:
repeatedly cancel the top bit of `v` against the top bit of `r`. -/
def polyMod (v r : Nat) : Nat :=
  if hr : r = 0 then v
  else if hv : v < 2 ^ Nat.log2 r then v
  else polyMod (v ^^^ (r <<< (Nat.log2 v - Nat.log2 r))) r
termination_by v
decreasing_by exact polyMod_step_lt (by assumption) (by assumption)

theorem polyMod_of_lt {v r : Nat} (hv : v < 2 ^ Nat.log2 r) : polyMod v r = v := by
  rw [polyMod]
  by_cases hr : r = 0 <;> simp [hr, hv]

theorem polyMod_lt (v r : Nat) (hr : r ≠ 0) : polyMod v r < 2 ^ Nat.log2 r := by
  induction v using Nat.strong_induction_on with
  | _ v ih =>
    rw [polyMod, dif_neg hr]
    by_cases hv : v < 2 ^ Nat.log2 r
    · simpa [hv] using hv
    · rw [dif_neg hv]
      exact ih _ (polyMod_step_lt hr hv)

theorem polyMod_congr (v r : Nat) : ∃ q, v = polyMod v r ^^^ cmul q r := by
  induction v using Nat.strong_induction_on with
  | _ v ih =>
    by_cases hr : r = 0
    · exact ⟨0, by rw [polyMod, dif_pos hr, cmul_zero_left, Nat.xor_zero]⟩
    · by_cases hv : v < 2 ^ Nat.log2 r
      · exact ⟨0, by rw [polyMod_of_lt hv, cmul_zero_left, Nat.xor_zero]⟩
      · set d := Nat.log2 v - Nat.log2 r with hd
        obtain ⟨q', hq'⟩ := ih (v ^^^ (r <<< d)) (polyMod_step_lt hr hv)
        refine ⟨q' ^^^ 2 ^ d, ?_⟩
        have hpm : polyMod v r = polyMod (v ^^^ (r <<< d)) r := by
          conv_lhs => rw [polyMod, dif_neg hr, dif_neg hv]
        rw [hpm, cmul_xor_left, cmul_two_pow_left, ← Nat.xor_assoc, ← hq']
        exact (Nat.xor_cancel_right _ _).symm

theorem xor_swap_sides {a b c d : Nat} (h : a ^^^ b = c ^^^ d) : a ^^^ c = b ^^^ d := by
  have e1 : (a ^^^ b) ^^^ (b ^^^ c) = a ^^^ c := by
    rw [Nat.xor_assoc, ← Nat.xor_assoc b b c, Nat.xor_self, Nat.zero_xor]
  have e2 : (c ^^^ d) ^^^ (c ^^^ b) = d ^^^ b := by
    rw [xor_mix, Nat.xor_self, Nat.zero_xor]
  calc a ^^^ c = (a ^^^ b) ^^^ (b ^^^ c) := e1.symm
  _ = (c ^^^ d) ^^^ (c ^^^ b) := by rw [h, Nat.xor_comm b c]
  _ = d ^^^ b := e2
  _ = b ^^^ d := Nat.xor_comm d b

theorem xor_eq_zero_iff_eq {a b : Nat} : a ^^^ b = 0 ↔ a = b := by
  constructor
  · intro h
    have h2 : a ^^^ b ^^^ b = 0 ^^^ b := by rw [h]
    rw [Nat.xor_cancel_right, Nat.zero_xor] at h2
    exact h2
  · intro h
    rw [h, Nat.xor_self]

theorem polyMod_unique {r : Nat} (hr : r ≠ 0) {v u q : Nat}
    (hu : u < 2 ^ Nat.log2 r) (hcong : v = u ^^^ cmul q r) : polyMod v r = u := by
  obtain ⟨q', hq'⟩ := polyMod_congr v r
  have heq : u ^^^ cmul q r = polyMod v r ^^^ cmul q' r := by rw [← hcong, ← hq']
  have hx : u ^^^ polyMod v r = cmul (q ^^^ q') r := by
    rw [cmul_xor_left]
    exact xor_swap_sides heq
  by_cases hqq : q ^^^ q' = 0
  · rw [hqq, cmul_zero_left] at hx
    exact (xor_eq_zero_iff_eq.mp hx).symm
  · exfalso
    have hge := cmul_ge hqq hr
    have hlt : u ^^^ polyMod v r < 2 ^ Nat.log2 r :=
      Nat.xor_lt_two_pow hu (polyMod_lt v r hr)
    rw [hx] at hlt
    omega

theorem polyMod_xor {r : Nat} (hr : r ≠ 0) (a b : Nat) :
    polyMod (a ^^^ b) r = polyMod a r ^^^ polyMod b r := by
  obtain ⟨qa, ha⟩ := polyMod_congr a r
  obtain ⟨qb, hb⟩ := polyMod_congr b r
  refine polyMod_unique hr (q := qa ^^^ qb)
    (Nat.xor_lt_two_pow (polyMod_lt a r hr) (polyMod_lt b r hr)) ?_
  rw [cmul_xor_left]
  calc a ^^^ b = (polyMod a r ^^^ cmul qa r) ^^^ (polyMod b r ^^^ cmul qb r) := by
        rw [← ha, ← hb]
  _ = (polyMod a r ^^^ polyMod b r) ^^^ (cmul qa r ^^^ cmul qb r) := xor_mix _ _ _ _

theorem polyMod_absorb {r : Nat} (hr : r ≠ 0) (x q : Nat) :
    polyMod (x ^^^ cmul q r) r = polyMod x r := by
  obtain ⟨qx, hx⟩ := polyMod_congr x r
  refine polyMod_unique hr (q := qx ^^^ q) (polyMod_lt x r hr) ?_
  rw [cmul_xor_left]
  calc x ^^^ cmul q r = (polyMod x r ^^^ cmul qx r) ^^^ cmul q r := by rw [← hx]
  _ = polyMod x r ^^^ (cmul qx r ^^^ cmul q r) := Nat.xor_assoc _ _ _

theorem polyMod_idem {r : Nat} (hr : r ≠ 0) (v : Nat) :
    polyMod (polyMod v r) r = polyMod v r :=
  polyMod_of_lt (polyMod_lt v r hr)

theorem polyMod_shl {r : Nat} (hr : r ≠ 0) (v k : Nat) :
    polyMod (v <<< k) r = polyMod ((polyMod v r) <<< k) r := by
  obtain ⟨q, hq⟩ := polyMod_congr v r
  conv_lhs => rw [hq]
  rw [shl_xor, ← cmul_shl_left]
  exact polyMod_absorb hr _ _

/-! ## The embedded GF2n representation

A field element of `GF2n<W, NWORDS, A, B, C>` is modelled as the list of
its `NWORDS` machine words, word 0 least significant; a `wb`-bit word is a
natural `< 2 ^ wb`.  The parameters are passed explicitly:
`wb` = `W::NBITS`, `m` = `NWORDS` and the exponents `A`, `B`, `C` of the
reduction polynomial `x ^ n + x ^ A + x ^ B + x ^ C + 1`, `n = wb * m`. -/

/-- Value of a word array (word 0 least significant): the xor-concatenation
of its `wb`-bit words. -/
def wval (wb : Nat) : List Nat → Nat
  | [] => 0
  | w :: ws => w ^^^ (wval wb ws) <<< wb

/-- All words of the array fit in `wb` bits. -/
def wordsValid (wb : Nat) (ws : List Nat) : Prop := ∀ w ∈ ws, w < 2 ^ wb

/-- The low tail `1 + x^A + x^B + x^C` of the reduction polynomial. -/
def tailPoly (A B C : Nat) : Nat := 1 ^^^ (1 <<< A) ^^^ (1 <<< B) ^^^ (1 <<< C)

/-- The full reduction polynomial `x^n + x^A + x^B + x^C + 1` as a bit-vector. -/
def rpoly (n A B C : Nat) : Nat := (1 <<< n) ^^^ tailPoly A B C

/-- Word-wise xor of two arrays: `impl Add`/`AddAssign` for `GF2n`
(gf2n.rs lines 580-605). -/
def addE (a b : List Nat) : List Nat := List.zipWith (fun x y => x ^^^ y) a b

/-- Xor a value into the word at index `i`. -/
def xorAt (ws : List Nat) (i v : Nat) : List Nat := ws.set i (ws.getD i 0 ^^^ v)

/-- The word-level reduction tail of a carry word `c`:
`c ^ (c << A) ^ (c << B) ^ (c << C)` with wrapping word shifts, the low
word of `c · (1 + x^A + x^B + x^C)`.  This expression appears verbatim in
`shl1`, `shl_word`, `shlt` and `propagate_carries` in gf2n.rs. -/
def tlow (wb A B C c : Nat) : Nat :=
  c ^^^ ((c <<< A) % 2 ^ wb) ^^^ ((c <<< B) % 2 ^ wb) ^^^ ((c <<< C) % 2 ^ wb)

/-- `(c >> (NBITS - A)) ^ (c >> (NBITS - B)) ^ (c >> (NBITS - C))`: the high
word of `c · (1 + x^A + x^B + x^C)` (gf2n.rs, same places as `tlow`). -/
def thigh (wb A B C c : Nat) : Nat :=
  (c >>> (wb - A)) ^^^ (c >>> (wb - B)) ^^^ (c >>> (wb - C))

theorem shr_lt_pow {x t : Nat} (h : x < 2 ^ t) (s : Nat) : x >>> s < 2 ^ (t - s) := by
  rw [Nat.shiftRight_eq_div_pow]
  rcases le_or_lt s t with hs | hs
  · rw [Nat.div_lt_iff_lt_mul (Nat.pos_pow_of_pos s two_pos), ← pow_add]
    have : t - s + s = t := by omega
    rw [this]
    exact h
  · have h1 : x < 2 ^ s := lt_trans h (Nat.pow_lt_pow_right one_lt_two hs)
    have h2 : x / 2 ^ s = 0 := Nat.div_eq_of_lt h1
    rw [h2]
    have : t - s = 0 := by omega
    rw [this]
    norm_num

/-- The carry shrinks strictly at each reduction step of the word-sized
while loops, making them terminate. -/
theorem thigh_lt {wb A B C c : Nat} (hc : c ≠ 0) (hA : A < wb) (hBA : B ≤ A)
    (hCB : C ≤ B) : thigh wb A B C c < c := by
  have hL1 : c < 2 ^ (Nat.log2 c + 1) := Nat.lt_log2_self
  have hL2 : 2 ^ Nat.log2 c ≤ c := Nat.log2_self_le hc
  have hbound : ∀ X, X ≤ A → c >>> (wb - X) < 2 ^ (Nat.log2 c + 1 - (wb - A)) := by
    intro X hX
    have h1 : c >>> (wb - X) < 2 ^ (Nat.log2 c + 1 - (wb - X)) := shr_lt_pow hL1 _
    exact lt_of_lt_of_le h1 (Nat.pow_le_pow_right (by norm_num) (by omega))
  have h1 := hbound A le_rfl
  have h2 := hbound B hBA
  have h3 := hbound C (le_trans hCB hBA)
  have hx : thigh wb A B C c < 2 ^ (Nat.log2 c + 1 - (wb - A)) :=
    Nat.xor_lt_two_pow (Nat.xor_lt_two_pow h1 h2) h3
  have : (2:Nat) ^ (Nat.log2 c + 1 - (wb - A)) ≤ 2 ^ Nat.log2 c :=
    Nat.pow_le_pow_right (by norm_num) (by omega)
  omega

/-- The `while carry != 0` reduction loop shared by the single-word branches
of `shl_word`, `shlt` and `propagate_carries` (gf2n.rs lines 394-403,
419-427 and 500-505): fold the carry back through the tail of the reduction
polynomial until it vanishes.  The extra parameter guard only rules out
degenerate parameters (`A ≥ wb` or unordered exponents) with which the Rust
loop would not terminate either; the library always calls it with
`C ≤ B ≤ A < wb`. -/
def pcLoop (wb A B C : Nat) (w c : Nat) : Nat :=
  if c = 0 ∨ ¬ (A < wb ∧ B ≤ A ∧ C ≤ B) then w
  else pcLoop wb A B C (w ^^^ tlow wb A B C c) (thigh wb A B C c)
termination_by c
decreasing_by
  rename_i h
  push_neg at h
  exact thigh_lt h.1 h.2.1 h.2.2.1 h.2.2.2

/-- Word-by-word left shift by `s` bits with carry chaining, the common loop
of `GF2n::shl1` (with `s = 1`, gf2n.rs lines 379-385) and of the multi-word
branch of `GF2n::shl_word` (lines 405-410); returns the shifted array and
the final carry. -/
def shlGo (wb s : Nat) : List Nat → Nat → List Nat × Nat
  | [], carry => ([], carry)
  | d :: rest, carry =>
    let p := shlGo wb s rest (d >>> (wb - s))
    ((((d <<< s) % 2 ^ wb) ^^^ carry) :: p.1, p.2)

/-- `GF2n::shl1` (gf2n.rs lines 379-389): multiply by `x`; if the top bit
falls off, xor the tail of the reduction polynomial into word 0. -/
def shl1 (wb A B C : Nat) (ws : List Nat) : List Nat :=
  let p := shlGo wb 1 ws 0
  if p.2 ≠ 0 then xorAt p.1 0 (tailPoly A B C) else p.1

/-- `GF2n::shl_word` (gf2n.rs lines 392-415): parallel left shift by
`0 < s < wb` bits, with the ejected high bits reduced; iterated reduction
for a single-word element.  The word count decides the branch, like
`NWORDS == 1` in the source. -/
def shl_word (wb A B C : Nat) (ws : List Nat) (s : Nat) : List Nat :=
  if ws.length = 1 then
    let d := ws.getD 0 0
    [pcLoop wb A B C ((d <<< s) % 2 ^ wb) (d >>> (wb - s))]
  else
    let p := shlGo wb s ws 0
    xorAt (xorAt p.1 0 (tlow wb A B C p.2)) 1 (thigh wb A B C p.2)

/-- `GF2n::shlt` (gf2n.rs lines 418-437): shift by one full word.  For a
multi-word element, rotate the words up and reduce the ejected top word;
for a single word, iterate the reduction to a fixed point. -/
def shlt (wb A B C : Nat) (ws : List Nat) : List Nat :=
  if ws.length = 1 then
    [pcLoop wb A B C 0 (ws.getD 0 0)]
  else
    let c := ws.getD (ws.length - 1) 0
    xorAt (tlow wb A B C c :: ws.dropLast) 1 (thigh wb A B C c)

/-- One bit of the inner loop of `GF2n::mul_as_add` (gf2n.rs lines 444-449):
if bit `i` of the multiplier word is set, xor the running value into the
result; in any case shift the running value left by one. -/
def mulBitStep (wb A B C : Nat) (word : Nat) (st : List Nat × List Nat)
    (i : Nat) : List Nat × List Nat :=
  if word &&& 1 <<< i ≠ 0 then (shl1 wb A B C st.1, addE st.2 st.1)
  else (shl1 wb A B C st.1, st.2)

/-- The body of `GF2n::mul_as_add` for one word of the multiplier
(gf2n.rs lines 443-450). -/
def mulStep (wb A B C : Nat) (word : Nat) (st : List Nat × List Nat) :
    List Nat × List Nat :=
  (List.range wb).foldl (mulBitStep wb A B C word) st

/-- `GF2n::mul_as_add` (gf2n.rs lines 439-452): shift-and-add product of the
two arrays, word 0 of `y` first. -/
def mul_as_add (wb A B C : Nat) (x y : List Nat) : List Nat :=
  (y.foldl (fun st word => mulStep wb A B C word st)
    (x, List.replicate x.length 0)).2

/-- Indexing into the `2m`-word accumulator of the fused-carry and CLMUL
multipliers: index `< m` lands in the low half, otherwise in the carry half
(`if ki < NWORDS { words[ki] ^= .. } else { carry[ki - NWORDS] ^= .. }`). -/
def acc2 (m : Nat) (st : List Nat × List Nat) (idx v : Nat) : List Nat × List Nat :=
  if idx < m then (xorAt st.1 idx v, st.2) else (st.1, xorAt st.2 (idx - m) v)

/-- One iteration of the multi-word branch of `GF2n::propagate_carries`
(gf2n.rs lines 506-519): carry word `i` is folded into words `i` and `i+1`;
for the last carry word the overflow is reduced once more into words 0
and 1. -/
def pcStepM (wb m A B C : Nat) (cs ws : List Nat) (i : Nat) : List Nat :=
  let c := cs.getD i 0
  let ws1 := xorAt ws i (tlow wb A B C c)
  if i + 1 < m then xorAt ws1 (i + 1) (thigh wb A B C c)
  else
    let c2 := thigh wb A B C c
    xorAt (xorAt ws1 0 (tlow wb A B C c2)) 1 (thigh wb A B C c2)

/-- `GF2n::propagate_carries` (gf2n.rs lines 499-523): reduce the high
`m`-word half into the low half through the identity
`c·x^n ≡ c·(x^A + x^B + x^C + 1)`. -/
def propagate_carries (wb m A B C : Nat) (ws cs : List Nat) : List Nat :=
  if m = 1 then
    [pcLoop wb A B C (ws.getD 0 0) (cs.getD 0 0)]
  else
    (List.range m).foldl (pcStepM wb m A B C cs) ws

/-- One step of the innermost loop of `GF2n::mul_fused_carry`
(gf2n.rs lines 464-481): word `k` of `x`, shifted left by `j` bits, is
accumulated into positions `k+i` (its low word) and, when `j ≠ 0`, `k+i+1`
(its shifted-out high bits). -/
def fusedK (wb m : Nat) (x : List Nat) (i j : Nat) (st : List Nat × List Nat)
    (k : Nat) : List Nat × List Nat :=
  if j ≠ 0 then
    acc2 m (acc2 m st (k + i) ((x.getD k 0 <<< j) % 2 ^ wb))
      (k + i + 1) (x.getD k 0 >>> (wb - j))
  else acc2 m st (k + i) ((x.getD k 0 <<< j) % 2 ^ wb)

/-- The innermost loop of `GF2n::mul_fused_carry`, executed when bit `j` of
word `i` of the multiplier is set. -/
def fusedInner (wb m : Nat) (x : List Nat) (i j : Nat)
    (st : List Nat × List Nat) : List Nat × List Nat :=
  (List.range m).foldl (fusedK wb m x i j) st

/-- The bit loop of `GF2n::mul_fused_carry` (gf2n.rs lines 462-483). -/
def fusedJ (wb m : Nat) (x : List Nat) (word i : Nat) (st : List Nat × List Nat)
    (j : Nat) : List Nat × List Nat :=
  if word &&& 1 <<< j ≠ 0 then fusedInner wb m x i j st else st

/-- The word loop of `GF2n::mul_fused_carry` (gf2n.rs lines 460-484). -/
def fusedI (wb m : Nat) (x y : List Nat) (st : List Nat × List Nat)
    (i : Nat) : List Nat × List Nat :=
  (List.range wb).foldl (fusedJ wb m x (y.getD i 0) i) st

/-- `GF2n::mul_fused_carry` (gf2n.rs lines 455-488): accumulate the full
`2n`-bit product without intermediate reduction, then propagate the carries. -/
def mul_fused_carry (wb m A B C : Nat) (x y : List Nat) : List Nat :=
  let st := (List.range m).foldl (fusedI wb m x y)
    (List.replicate m 0, List.replicate m 0)
  propagate_carries wb m A B C st.1 st.2

/-- One word-pair step of `mul_clmul_u64` (gf2n.rs lines 264-291): the
`2·wb`-bit carryless product of words `x_i` and `y_j` (the `PCLMULQDQ`
instruction, modelled by `cmul`, split into its low and high words) is
accumulated into positions `i+j` and `i+j+1` of the split accumulator. -/
def clmulJ (wb m : Nat) (x y : List Nat) (i : Nat) (st : List Nat × List Nat)
    (j : Nat) : List Nat × List Nat :=
  acc2 m (acc2 m st (i + j) ((cmul (x.getD i 0) (y.getD j 0)) % 2 ^ wb))
    (i + j + 1) ((cmul (x.getD i 0) (y.getD j 0)) >>> wb)

/-- The outer loop of `mul_clmul_u64`. -/
def clmulI (wb m : Nat) (x y : List Nat) (st : List Nat × List Nat)
    (i : Nat) : List Nat × List Nat :=
  (List.range m).foldl (clmulJ wb m x y i) st

/-- `mul_clmul_u64` (gf2n.rs lines 253-295): word-pair carryless products
accumulated into the split halves, then the shared carry propagation. -/
def mul_clmul (wb m A B C : Nat) (x y : List Nat) : List Nat :=
  let st := (List.range m).foldl (clmulI wb m x y)
    (List.replicate m 0, List.replicate m 0)
  propagate_carries wb m A B C st.1 st.2

/-- The all-zero element `GF2n::ZERO`. -/
def zeroE (m : Nat) : List Nat := List.replicate m 0

/-- `GF2n::new_small`: word 0 set, the rest zero.  `ONE = new_small 1`, and
`From<u8>` (gf2n.rs lines 570-578) is `new_small` of the byte. -/
def new_small (m w : Nat) : List Nat := w :: List.replicate (m - 1) 0

/-- `GF2n::invert` (gf2n.rs lines 542-550): `NBITS - 1` iterations of
"square `self`, multiply `result` by it", computing `self ^ (2 ^ n - 2)`. -/
def invert (wb m A B C : Nat) (v : List Nat) : List Nat :=
  ((List.range (wb * m - 1)).foldl
    (fun (st : List Nat × List Nat) _ =>
      let s2 := mul_as_add wb A B C st.1 st.1
      (s2, mul_as_add wb A B C st.2 s2)) (v, new_small m 1)).2

/-- `GF2n::from_diff` (gf2n.rs lines 552-554): `Self::from(lhs ^ rhs)`. -/
def from_diff (m u v : Nat) : List Nat := new_small m (u ^^^ v)

/-- `Word::from_bytes`, i.e. `uN::from_be_bytes`: big-endian decoding of a
word from its bytes. -/
def wordFromBytes (bs : List Nat) : Nat := bs.foldl (fun acc b => acc * 256 + b) 0

/-- `GF2n::from_bytes` (gf2n.rs lines 556-567): `None` unless the input has
exactly `NBYTES = NWORDS * W::NBYTES` bytes; otherwise decode word `i` from
the `i`-th word-sized chunk. -/
def from_bytes (wbytes m : Nat) (bs : List Nat) : Option (List Nat) :=
  if bs.length ≠ m * wbytes then none
  else some ((List.range m).map (fun i => wordFromBytes ((bs.drop (i * wbytes)).take wbytes)))

/-! ## Semantics of the word-array operations -/

theorem xor_left_comm (a b c : Nat) : a ^^^ (b ^^^ c) = b ^^^ (a ^^^ c) := by
  rw [← Nat.xor_assoc, Nat.xor_comm a b, Nat.xor_assoc]

theorem xor_cancel_l (a b : Nat) : a ^^^ (a ^^^ b) = b := by
  rw [← Nat.xor_assoc, Nat.xor_self, Nat.zero_xor]

theorem shr_eq_zero {x k : Nat} (h : x < 2 ^ k) {s : Nat} (hs : k ≤ s) : x >>> s = 0 := by
  rw [Nat.shiftRight_eq_div_pow]
  exact Nat.div_eq_of_lt (lt_of_lt_of_le h (Nat.pow_le_pow_right (by norm_num) hs))

theorem shl_mod_hi (x k t : Nat) : (x <<< k) % 2 ^ (k + t) = (x % 2 ^ t) <<< k := by
  apply Nat.eq_of_testBit_eq
  intro i
  simp only [Nat.testBit_mod_two_pow, Nat.testBit_shiftLeft]
  by_cases hik : i ≥ k
  · by_cases hit : i < k + t <;> simp [hik, hit] <;> omega
  · simp [hik]

theorem shl_shr_hi (x k t : Nat) : (x <<< k) >>> (k + t) = x >>> t := by
  rw [shl_shr_of_le x k (k + t) (Nat.le_add_right k t), Nat.add_sub_cancel_left]

theorem mod_pow_eq_self {x k : Nat} (h : x < 2 ^ k) : x % 2 ^ k = x := Nat.mod_eq_of_lt h

theorem wval_nil (wb : Nat) : wval wb [] = 0 := rfl

theorem wval_cons (wb w : Nat) (ws : List Nat) :
    wval wb (w :: ws) = w ^^^ (wval wb ws) <<< wb := rfl

theorem wval_lt {wb : Nat} : ∀ {ws : List Nat}, wordsValid wb ws →
    wval wb ws < 2 ^ (wb * ws.length)
  | [], _ => by simp [wval_nil, Nat.pos_pow_of_pos]
  | w :: ws, hv => by
    have hw : w < 2 ^ wb := hv w (List.mem_cons_self w ws)
    have hrest : wval wb ws < 2 ^ (wb * ws.length) :=
      wval_lt (fun u hu => hv u (List.mem_cons_of_mem w hu))
    rw [wval_cons]
    have h1 : (wval wb ws) <<< wb < 2 ^ (wb * (w :: ws).length) := by
      rw [Nat.shiftLeft_eq, List.length_cons]
      calc wval wb ws * 2 ^ wb < 2 ^ (wb * ws.length) * 2 ^ wb :=
        (Nat.mul_lt_mul_right (Nat.pos_pow_of_pos _ two_pos)).mpr hrest
      _ = 2 ^ (wb * (ws.length + 1)) := by rw [← pow_add]; ring_nf
    have h2 : w < 2 ^ (wb * (w :: ws).length) := by
      refine lt_of_lt_of_le hw (Nat.pow_le_pow_right (by norm_num) ?_)
      rw [List.length_cons]
      calc wb = wb * 1 := by ring
      _ ≤ wb * (ws.length + 1) := Nat.mul_le_mul_left wb (by omega)
    exact Nat.xor_lt_two_pow h2 h1

theorem wval_addE {wb : Nat} : ∀ {a b : List Nat}, a.length = b.length →
    wval wb (addE a b) = wval wb a ^^^ wval wb b
  | [], [], _ => by simp [addE, wval_nil]
  | [], _ :: _, h => by simp at h
  | _ :: _, [], h => by simp at h
  | x :: a, y :: b, h => by
    have hlen : a.length = b.length := by simpa using h
    simp only [addE, List.zipWith_cons_cons]
    rw [wval_cons, wval_cons, wval_cons]
    show (x ^^^ y) ^^^ (wval wb (addE a b)) <<< wb = _
    rw [wval_addE hlen, shl_xor, xor_mix]

theorem addE_length {a b : List Nat} : (addE a b).length = min a.length b.length := by
  simp [addE]

theorem addE_valid {wb : Nat} : ∀ {a b : List Nat}, wordsValid wb a →
    wordsValid wb b → wordsValid wb (addE a b)
  | [], _, _, _ => fun w hw => by simp [addE] at hw
  | _ :: _, [], _, _ => fun w hw => by simp [addE] at hw
  | x :: a, y :: b, ha, hb => fun w hw => by
    simp only [addE, List.zipWith_cons_cons, List.mem_cons] at hw
    rcases hw with h | h
    · rw [h]
      exact Nat.xor_lt_two_pow (ha x (List.mem_cons_self x a)) (hb y (List.mem_cons_self y b))
    · exact addE_valid (fun u hu => ha u (List.mem_cons_of_mem x hu))
        (fun u hu => hb u (List.mem_cons_of_mem y hu)) w h

theorem wval_replicate_zero (wb m : Nat) : wval wb (List.replicate m 0) = 0 := by
  induction m with
  | zero => rfl
  | succ t ih => rw [List.replicate_succ, wval_cons, ih]; simp

theorem replicate_zero_valid (wb m : Nat) : wordsValid wb (List.replicate m 0) := by
  intro w hw
  rw [List.eq_of_mem_replicate hw]
  exact Nat.pos_pow_of_pos _ two_pos

theorem wval_mod_low {wb : Nat} {w : Nat} (hw : w < 2 ^ wb) (ws : List Nat) :
    wval wb (w :: ws) % 2 ^ wb = w := by
  rw [wval_cons, mod_pow_xor, mod_pow_eq_self hw]
  have h1 : ((wval wb ws) <<< wb) % 2 ^ wb = 0 := by
    rw [Nat.shiftLeft_eq, Nat.mul_mod_left]
  rw [h1, Nat.xor_zero]

theorem wval_shr_high {wb : Nat} {w : Nat} (hw : w < 2 ^ wb) (ws : List Nat) :
    wval wb (w :: ws) >>> wb = wval wb ws := by
  rw [wval_cons, shr_xor, shr_eq_zero hw le_rfl, Nat.zero_xor]
  have := shl_shr_hi (wval wb ws) wb 0
  simpa using this

theorem wval_inj {wb : Nat} : ∀ {a b : List Nat}, wordsValid wb a → wordsValid wb b →
    a.length = b.length → wval wb a = wval wb b → a = b
  | [], [], _, _, _, _ => rfl
  | [], _ :: _, _, _, h, _ => by simp at h
  | _ :: _, [], _, _, h, _ => by simp at h
  | x :: a, y :: b, ha, hb, hlen, hval => by
    have hx : x < 2 ^ wb := ha x (List.mem_cons_self x a)
    have hy : y < 2 ^ wb := hb y (List.mem_cons_self y b)
    have h1 : x = y := by
      rw [← wval_mod_low hx a, ← wval_mod_low hy b, hval]
    have h2 : wval wb a = wval wb b := by
      rw [← wval_shr_high hx a, ← wval_shr_high hy b, hval]
    have h3 : a = b := wval_inj (fun u hu => ha u (List.mem_cons_of_mem x hu))
      (fun u hu => hb u (List.mem_cons_of_mem y hu)) (by simpa using hlen) h2
    rw [h1, h3]

theorem wval_append {wb : Nat} : ∀ (a b : List Nat),
    wval wb (a ++ b) = wval wb a ^^^ (wval wb b) <<< (wb * a.length)
  | [], b => by simp [wval_nil]
  | x :: a, b => by
    rw [List.cons_append, wval_cons, wval_append a b, shl_xor, wval_cons,
      Nat.xor_assoc, Nat.shiftLeft_shiftLeft, List.length_cons]
    have h : wb * a.length + wb = wb * (a.length + 1) := by ring
    rw [h]

theorem wval_xorAt {wb : Nat} : ∀ {ws : List Nat} {i : Nat} (v : Nat), i < ws.length →
    wval wb (xorAt ws i v) = wval wb ws ^^^ v <<< (wb * i)
  | [], i, v, h => by simp at h
  | w :: ws, 0, v, _ => by
    show wval wb ((w ^^^ v) :: ws) = _
    rw [wval_cons, wval_cons]
    simp [Nat.xor_assoc, Nat.xor_comm v, xor_left_comm]
  | w :: ws, i + 1, v, h => by
    show wval wb (w :: xorAt ws i v) = _
    rw [wval_cons, wval_xorAt v (by simpa using h), shl_xor, wval_cons,
      Nat.xor_assoc, Nat.shiftLeft_shiftLeft]
    have h2 : wb * i + wb = wb * (i + 1) := by ring
    rw [h2]

theorem xorAt_length (ws : List Nat) (i v : Nat) : (xorAt ws i v).length = ws.length := by
  simp [xorAt]

theorem xorAt_valid {wb : Nat} {ws : List Nat} {i v : Nat} (hws : wordsValid wb ws)
    (hv : v < 2 ^ wb) : wordsValid wb (xorAt ws i v) := by
  intro w hw
  rw [xorAt] at hw
  rcases List.mem_or_eq_of_mem_set hw with hmem | heq
  · exact hws w hmem
  · subst heq
    by_cases hi : i < ws.length
    · rw [List.getD_eq_get ws 0 hi]
      exact Nat.xor_lt_two_pow (hws _ (List.get_mem ws i hi)) hv
    · rw [List.getD_eq_default _ _ (by omega), Nat.zero_xor]
      exact hv

/-- Splitting a value into its words. -/
def toWords (wb m v : Nat) : List Nat := (List.range m).map (fun i => (v >>> (wb * i)) % 2 ^ wb)

theorem one_shl (k : Nat) : 1 <<< k = 2 ^ k := by
  rw [Nat.shiftLeft_eq, one_mul]

theorem tailPoly_lt {A B C k : Nat} (hA : A < k) (hB : B < k) (hC : C < k) :
    tailPoly A B C < 2 ^ k := by
  unfold tailPoly
  rw [one_shl, one_shl, one_shl]
  have h1 : (1:Nat) < 2 ^ k := by
    have : (2:Nat) ^ 0 < 2 ^ k := Nat.pow_lt_pow_right one_lt_two (by omega)
    simpa using this
  exact Nat.xor_lt_two_pow (Nat.xor_lt_two_pow (Nat.xor_lt_two_pow h1
    (Nat.pow_lt_pow_right one_lt_two hA)) (Nat.pow_lt_pow_right one_lt_two hB))
    (Nat.pow_lt_pow_right one_lt_two hC)

theorem rpoly_facts {n A B C : Nat} (h : tailPoly A B C < 2 ^ n) :
    Nat.log2 (rpoly n A B C) = n ∧ rpoly n A B C ≠ 0 := by
  unfold rpoly
  rw [one_shl]
  have hmem := xor_small_mem_Ico (x := 2 ^ n) (L := n) le_rfl
    (Nat.pow_lt_pow_right one_lt_two (Nat.lt_succ_self n)) h
  constructor
  · exact log2_eq_of hmem.1 hmem.2
  · have : (0:Nat) < 2 ^ n := Nat.pos_pow_of_pos _ two_pos
    omega

theorem cmul_pow_shl_right (c k : Nat) : cmul c (1 <<< k) = c <<< k := by
  rw [cmul_comm, cmul_shl_left, cmul_one_left]

theorem cmul_tailPoly (A B C c : Nat) :
    cmul c (tailPoly A B C) = c ^^^ (c <<< A) ^^^ (c <<< B) ^^^ (c <<< C) := by
  unfold tailPoly
  rw [cmul_xor_right, cmul_xor_right, cmul_xor_right, cmul_one_right,
    cmul_pow_shl_right, cmul_pow_shl_right, cmul_pow_shl_right]

/-- The word-level split of the reduction tail: `c · (1 + x^A + x^B + x^C)`
is `tlow c` in the current word plus `thigh c` carried into the next word. -/
theorem tlow_thigh_split {wb A B C c : Nat} (hA : A ≤ wb) (hB : B ≤ wb) (hC : C ≤ wb)
    (hc : c < 2 ^ wb) :
    cmul c (tailPoly A B C) = tlow wb A B C c ^^^ (thigh wb A B C c) <<< wb := by
  rw [cmul_tailPoly]
  have eA : c <<< A = ((c <<< A) % 2 ^ wb) ^^^ ((c >>> (wb - A)) <<< wb) := by
    conv_lhs => rw [split_low_high (c <<< A) wb]
    rw [shl_shr_of_le c A wb hA]
  have eB : c <<< B = ((c <<< B) % 2 ^ wb) ^^^ ((c >>> (wb - B)) <<< wb) := by
    conv_lhs => rw [split_low_high (c <<< B) wb]
    rw [shl_shr_of_le c B wb hB]
  have eC : c <<< C = ((c <<< C) % 2 ^ wb) ^^^ ((c >>> (wb - C)) <<< wb) := by
    conv_lhs => rw [split_low_high (c <<< C) wb]
    rw [shl_shr_of_le c C wb hC]
  rw [eA, eB, eC]
  unfold tlow thigh
  rw [shl_xor, shl_xor]
  simp only [Nat.xor_assoc, Nat.xor_comm, xor_left_comm]

theorem tlow_lt {wb A B C c : Nat} (hc : c < 2 ^ wb) : tlow wb A B C c < 2 ^ wb := by
  unfold tlow
  have hp : (0:Nat) < 2 ^ wb := Nat.pos_pow_of_pos _ two_pos
  exact Nat.xor_lt_two_pow (Nat.xor_lt_two_pow (Nat.xor_lt_two_pow hc
    (Nat.mod_lt _ hp)) (Nat.mod_lt _ hp)) (Nat.mod_lt _ hp)

theorem thigh_lt_pow {wb A B C c : Nat} (hc : c < 2 ^ wb) : thigh wb A B C c < 2 ^ wb := by
  unfold thigh
  have hb : ∀ s : Nat, c >>> s < 2 ^ wb := by
    intro s
    rw [Nat.shiftRight_eq_div_pow]
    exact lt_of_le_of_lt (Nat.div_le_self _ _) hc
  exact Nat.xor_lt_two_pow (Nat.xor_lt_two_pow (hb _) (hb _)) (hb _)

/-- Semantics of the word-sized reduction loop: it computes the remainder of
`w + c · x^wb` modulo the reduction polynomial of the one-word field. -/
theorem pcLoop_spec {wb A B C : Nat} (hA : A < wb) (hBA : B ≤ A) (hCB : C ≤ B) :
    ∀ c w, w < 2 ^ wb → c < 2 ^ wb →
    pcLoop wb A B C w c = polyMod (w ^^^ c <<< wb) (rpoly wb A B C) := by
  have htail : tailPoly A B C < 2 ^ wb :=
    tailPoly_lt hA (lt_of_le_of_lt hBA hA) (lt_of_le_of_lt (le_trans hCB hBA) hA)
  obtain ⟨hlog, hne⟩ := rpoly_facts htail
  intro c
  induction c using Nat.strong_induction_on with
  | _ c ih =>
    intro w hw hc
    rw [pcLoop]
    by_cases hz : c = 0
    · rw [if_pos (Or.inl hz), hz, Nat.zero_shiftLeft, Nat.xor_zero,
        polyMod_of_lt (by rw [hlog]; exact hw)]
    · have hcond : ¬ (c = 0 ∨ ¬ (A < wb ∧ B ≤ A ∧ C ≤ B)) := by
        push_neg
        exact ⟨hz, hA, hBA, hCB⟩
      rw [if_neg hcond]
      have hw' : w ^^^ tlow wb A B C c < 2 ^ wb := Nat.xor_lt_two_pow hw (tlow_lt hc)
      have hc' : thigh wb A B C c < 2 ^ wb := thigh_lt_pow hc
      rw [ih (thigh wb A B C c) (thigh_lt hz hA hBA hCB) _ hw' hc']
      have hcong : (w ^^^ tlow wb A B C c) ^^^ (thigh wb A B C c) <<< wb
          = (w ^^^ c <<< wb) ^^^ cmul c (rpoly wb A B C) := by
        rw [rpoly, cmul_xor_right, cmul_pow_shl_right,
          tlow_thigh_split (le_of_lt hA) (le_of_lt (lt_of_le_of_lt hBA hA))
            (le_of_lt (lt_of_le_of_lt (le_trans hCB hBA) hA)) hc]
        simp only [Nat.xor_assoc, Nat.xor_comm, xor_left_comm, xor_cancel_l,
          Nat.xor_self, Nat.xor_zero, Nat.zero_xor]
      rw [hcong, polyMod_absorb hne]

theorem shr_le_self (x s : Nat) : x >>> s ≤ x := by
  rw [Nat.shiftRight_eq_div_pow]
  exact Nat.div_le_self _ _

theorem shr_zero_lt {x k : Nat} (h : x >>> k = 0) : x < 2 ^ k := by
  rw [Nat.shiftRight_eq_div_pow] at h
  by_contra hge
  push_neg at hge
  have h1 : 1 ≤ x / 2 ^ k :=
    (Nat.le_div_iff_mul_le (Nat.pos_pow_of_pos _ two_pos)).mpr (by omega)
  omega

/-- Semantics of the carry-chained word shift: it computes the shifted value
modulo `2 ^ n` together with the shifted-out high bits. -/
theorem shlGo_spec {wb s : Nat} (hs : s ≤ wb) :
    ∀ (ws : List Nat) (c : Nat), wordsValid wb ws → c < 2 ^ wb →
    wval wb (shlGo wb s ws c).1 = ((wval wb ws <<< s) ^^^ c) % 2 ^ (wb * ws.length) ∧
    (shlGo wb s ws c).2 = ((wval wb ws <<< s) ^^^ c) >>> (wb * ws.length) ∧
    (shlGo wb s ws c).1.length = ws.length ∧
    wordsValid wb (shlGo wb s ws c).1
  | [], c, _, _ => by
    refine ⟨?_, ?_, rfl, fun w hw => by simp [shlGo] at hw⟩
    · simp [shlGo, wval_nil, Nat.mod_one]
    · simp [shlGo, wval_nil]
  | d :: rest, c, hv, hc => by
    have hd : d < 2 ^ wb := hv d (List.mem_cons_self d rest)
    have hrv : wordsValid wb rest := fun u hu => hv u (List.mem_cons_of_mem d hu)
    have hc' : d >>> (wb - s) < 2 ^ wb := lt_of_le_of_lt (shr_le_self d _) hd
    obtain ⟨h1, h2, h3, h4⟩ := shlGo_spec hs rest (d >>> (wb - s)) hrv hc'
    have hh0 : ((d <<< s) % 2 ^ wb) ^^^ c < 2 ^ wb :=
      Nat.xor_lt_two_pow (Nat.mod_lt _ (Nat.pos_pow_of_pos _ two_pos)) hc
    set L := rest.length with hLdef
    have hdecomp : (wval wb (d :: rest) <<< s) ^^^ c =
        (((d <<< s) % 2 ^ wb) ^^^ c) ^^^
          (((wval wb rest <<< s) ^^^ (d >>> (wb - s))) <<< wb) := by
      have e1 : d <<< s = ((d <<< s) % 2 ^ wb) ^^^ ((d >>> (wb - s)) <<< wb) := by
        conv_lhs => rw [split_low_high (d <<< s) wb]
        rw [shl_shr_of_le d s wb hs]
      have e2 : wval wb rest <<< (wb + s) = (wval wb rest <<< s) <<< wb := by
        rw [Nat.shiftLeft_shiftLeft, Nat.add_comm wb s]
      conv_lhs => rw [wval_cons, shl_xor, Nat.shiftLeft_shiftLeft, e1, e2]
      conv_rhs => rw [shl_xor]
      simp only [Nat.xor_assoc, Nat.xor_comm, xor_left_comm]
    have hlen1 : wb * (d :: rest).length = wb + wb * L := by
      rw [List.length_cons]
      ring
    refine ⟨?_, ?_, ?_, ?_⟩
    · show wval wb ((((d <<< s) % 2 ^ wb) ^^^ c) :: (shlGo wb s rest (d >>> (wb - s))).1) = _
      rw [wval_cons, h1, hdecomp, hlen1]
      conv_rhs => rw [mod_pow_xor,
        mod_pow_eq_self (lt_of_lt_of_le hh0 (Nat.pow_le_pow_right (by norm_num)
          (show wb ≤ wb + wb * L by omega))), shl_mod_hi]
    · show (shlGo wb s rest (d >>> (wb - s))).2 = _
      rw [h2, hdecomp, hlen1]
      conv_rhs => rw [shr_xor, shr_eq_zero hh0 (show wb ≤ wb + wb * L by omega),
        Nat.zero_xor, shl_shr_hi]
    · show (_ :: (shlGo wb s rest (d >>> (wb - s))).1).length = _
      simp [h3]
    · intro w hw
      rcases List.mem_cons.mp hw with h | h
      · rw [h]
        exact hh0
      · exact h4 w h

/-- Semantics of `shl1`: multiplication by `x` modulo the reduction
polynomial. -/
theorem shl1_spec {wb m A B C : Nat} (hA : A < wb) (hBA : B ≤ A) (hCB : C ≤ B)
    (hm1 : 1 ≤ m) (ws : List Nat) (hv : wordsValid wb ws) (hm : ws.length = m) :
    wval wb (shl1 wb A B C ws) = polyMod ((wval wb ws) <<< 1) (rpoly (wb * m) A B C) ∧
    (shl1 wb A B C ws).length = m ∧ wordsValid wb (shl1 wb A B C ws) := by
  have hwb1 : 1 ≤ wb := by omega
  have hBwb : B < wb := lt_of_le_of_lt hBA hA
  have hCwb : C < wb := lt_of_le_of_lt (le_trans hCB hBA) hA
  have htail : tailPoly A B C < 2 ^ (wb * m) := by
    refine lt_of_lt_of_le (tailPoly_lt hA hBwb hCwb) (Nat.pow_le_pow_right (by norm_num) ?_)
    calc wb = wb * 1 := by ring
    _ ≤ wb * m := Nat.mul_le_mul_left wb hm1
  obtain ⟨hlog, hne⟩ := rpoly_facts htail
  obtain ⟨h1, h2, h3, h4⟩ := shlGo_spec hwb1 ws 0 hv (Nat.pos_pow_of_pos _ two_pos)
  rw [Nat.xor_zero] at h1 h2
  rw [hm] at h1 h2
  have hvlt : wval wb ws < 2 ^ (wb * m) := hm ▸ wval_lt hv
  have hU : wval wb ws <<< 1 < 2 ^ (wb * m + 1) := by
    rw [Nat.shiftLeft_eq, pow_one, pow_add, pow_one]
    omega
  unfold shl1
  have hm0 : 0 < (shlGo wb 1 ws 0).1.length := by omega
  have hcarlt : (shlGo wb 1 ws 0).2 < 2 := by
    rw [h2]
    have h6 := shr_lt_pow hU (wb * m)
    have h7 : wb * m + 1 - wb * m = 1 := by omega
    rw [h7] at h6
    simpa using h6
  by_cases hcar : (shlGo wb 1 ws 0).2 ≠ 0
  · rw [if_pos hcar]
    have hcar1 : (wval wb ws <<< 1) >>> (wb * m) = 1 := by
      rw [← h2]
      omega
    have htailw : tailPoly A B C < 2 ^ wb := tailPoly_lt hA hBwb hCwb
    refine ⟨?_, ?_, xorAt_valid h4 htailw⟩
    · rw [wval_xorAt _ hm0, h1, Nat.mul_zero, Nat.shiftLeft_zero]
      refine (polyMod_unique hne (q := 1) ?_ ?_).symm
      · rw [hlog]
        exact Nat.xor_lt_two_pow (Nat.mod_lt _ (Nat.pos_pow_of_pos _ two_pos)) htail
      · rw [cmul_one_left, rpoly]
        conv_lhs => rw [split_low_high (wval wb ws <<< 1) (wb * m)]
        rw [hcar1]
        simp only [Nat.xor_assoc, Nat.xor_comm, xor_left_comm, xor_cancel_l,
          Nat.xor_self, Nat.xor_zero, Nat.zero_xor]
    · rw [xorAt_length, h3, hm]
  · rw [if_neg hcar]
    push_neg at hcar
    rw [hcar] at h2
    have hUlt : wval wb ws <<< 1 < 2 ^ (wb * m) := shr_zero_lt h2.symm
    refine ⟨?_, by rw [h3, hm], h4⟩
    rw [h1, mod_pow_eq_self hUlt, polyMod_of_lt (by rw [hlog]; exact hUlt)]

theorem shl_lt_pow {x t : Nat} (h : x < 2 ^ t) (k : Nat) : x <<< k < 2 ^ (t + k) := by
  rw [Nat.shiftLeft_eq, pow_add]
  exact (Nat.mul_lt_mul_right (Nat.pos_pow_of_pos _ two_pos)).mpr h

theorem cmul_lt_pow {a b p q : Nat} (ha : a < 2 ^ p) (hb : b < 2 ^ q) :
    cmul a b < 2 ^ (p + q) := by
  by_cases ha0 : a = 0
  · rw [ha0, cmul_zero_left]
    exact Nat.pos_pow_of_pos _ two_pos
  by_cases hb0 : b = 0
  · rw [hb0, cmul_zero_right]
    exact Nat.pos_pow_of_pos _ two_pos
  have h1 := (cmul_mem_Ico ha0 hb0).2
  have hla : Nat.log2 a < p := by
    have := Nat.log2_self_le ha0
    by_contra hc
    push_neg at hc
    exact absurd (le_trans (Nat.pow_le_pow_right (by norm_num) hc) this) (by omega)
  have hlb : Nat.log2 b < q := by
    have := Nat.log2_self_le hb0
    by_contra hc
    push_neg at hc
    exact absurd (le_trans (Nat.pow_le_pow_right (by norm_num) hc) this) (by omega)
  exact lt_of_lt_of_le h1 (Nat.pow_le_pow_right (by norm_num) (by omega))

/-- The derived parameter facts used by every word-array routine. -/
theorem param_facts {wb m A B C : Nat} (hA : A < wb) (hBA : B ≤ A) (hCB : C ≤ B)
    (hm1 : 1 ≤ m) :
    B < wb ∧ C < wb ∧ tailPoly A B C < 2 ^ wb ∧ tailPoly A B C < 2 ^ (wb * m) ∧
      Nat.log2 (rpoly (wb * m) A B C) = wb * m ∧ rpoly (wb * m) A B C ≠ 0 := by
  have hBwb : B < wb := lt_of_le_of_lt hBA hA
  have hCwb : C < wb := lt_of_le_of_lt (le_trans hCB hBA) hA
  have ht1 : tailPoly A B C < 2 ^ wb := tailPoly_lt hA hBwb hCwb
  have hwm : wb ≤ wb * m := by
    calc wb = wb * 1 := by ring
    _ ≤ wb * m := Nat.mul_le_mul_left wb hm1
  have ht2 : tailPoly A B C < 2 ^ (wb * m) :=
    lt_of_lt_of_le ht1 (Nat.pow_le_pow_right (by norm_num) hwm)
  obtain ⟨hlog, hne⟩ := rpoly_facts ht2
  exact ⟨hBwb, hCwb, ht1, ht2, hlog, hne⟩

/-- Semantics of `shl_word`: multiplication by `x ^ s` modulo the reduction
polynomial, for a word-internal shift `0 < s < wb`. -/
theorem shl_word_spec {wb m A B C : Nat} (hA : A < wb) (hBA : B ≤ A) (hCB : C ≤ B)
    (hm1 : 1 ≤ m) {s : Nat} (hs : s < wb) (ws : List Nat) (hv : wordsValid wb ws)
    (hm : ws.length = m) :
    wval wb (shl_word wb A B C ws s) =
      polyMod ((wval wb ws) <<< s) (rpoly (wb * m) A B C) ∧
    (shl_word wb A B C ws s).length = m ∧ wordsValid wb (shl_word wb A B C ws s) := by
  obtain ⟨hBwb, hCwb, ht1, ht2, hlog, hne⟩ := param_facts hA hBA hCB hm1
  unfold shl_word
  by_cases h1 : ws.length = 1
  · rw [if_pos h1]
    obtain ⟨d, hd⟩ := List.length_eq_one.mp h1
    subst hd
    have hm' : m = 1 := by omega
    subst hm'
    have hdlt : d < 2 ^ wb := hv d (List.mem_cons_self d [])
    have hw0 : (d <<< s) % 2 ^ wb < 2 ^ wb := Nat.mod_lt _ (Nat.pos_pow_of_pos _ two_pos)
    have hc0 : d >>> (wb - s) < 2 ^ wb := lt_of_le_of_lt (shr_le_self d _) hdlt
    have hval : wval wb [pcLoop wb A B C ((List.getD [d] 0 0 <<< s) % 2 ^ wb)
        (List.getD [d] 0 0 >>> (wb - s))] = pcLoop wb A B C ((d <<< s) % 2 ^ wb)
        (d >>> (wb - s)) := by
      simp [wval_cons, wval_nil, Nat.zero_shiftLeft]
    have hwd : wval wb [d] = d := by
      simp [wval_cons, wval_nil, Nat.zero_shiftLeft]
    rw [Nat.mul_one] at hlog hne ⊢
    refine ⟨?_, rfl, ?_⟩
    · rw [hval, pcLoop_spec hA hBA hCB _ _ hw0 hc0, hwd]
      congr 1
      conv_rhs => rw [split_low_high (d <<< s) wb, shl_shr_of_le d s wb (le_of_lt hs)]
    · intro w hw
      rcases List.mem_cons.mp hw with h | h
      · rw [h]
        simp only [List.getD_cons_zero]
        rw [pcLoop_spec hA hBA hCB _ _ hw0 hc0]
        have := polyMod_lt (((d <<< s) % 2 ^ wb) ^^^ (d >>> (wb - s)) <<< wb) _ hne
        rw [hlog] at this
        exact this
      · simp at h
  · rw [if_neg h1]
    have hm2 : 2 ≤ m := by omega
    obtain ⟨g1, g2, g3, g4⟩ := shlGo_spec (le_of_lt hs) ws 0 hv (Nat.pos_pow_of_pos _ two_pos)
    rw [Nat.xor_zero] at g1 g2
    rw [hm] at g1 g2
    have hvlt : wval wb ws < 2 ^ (wb * m) := hm ▸ wval_lt hv
    have hclt : (shlGo wb s ws 0).2 < 2 ^ s := by
      rw [g2]
      have h2 := shr_lt_pow (shl_lt_pow hvlt s) (wb * m)
      have h3 : wb * m + s - wb * m = s := by omega
      rw [h3] at h2
      exact h2
    have hcwb : (shlGo wb s ws 0).2 < 2 ^ wb :=
      lt_of_lt_of_le hclt (Nat.pow_le_pow_right (by norm_num) (le_of_lt hs))
    have hlen0 : 0 < (shlGo wb s ws 0).1.length := by omega
    have hlen1 : 1 < (xorAt (shlGo wb s ws 0).1 0 (tlow wb A B C (shlGo wb s ws 0).2)).length := by
      rw [xorAt_length]
      omega
    refine ⟨?_, ?_, ?_⟩
    · rw [wval_xorAt _ hlen1, wval_xorAt _ hlen0, g1]
      refine (polyMod_unique hne (q := (shlGo wb s ws 0).2) ?_ ?_).symm
      · rw [hlog]
        have hu1 : (wval wb ws <<< s) % 2 ^ (wb * m) < 2 ^ (wb * m) :=
          Nat.mod_lt _ (Nat.pos_pow_of_pos _ two_pos)
        have hu2 : tlow wb A B C (shlGo wb s ws 0).2 <<< (wb * 0) < 2 ^ (wb * m) := by
          rw [Nat.mul_zero, Nat.shiftLeft_zero]
          exact lt_of_lt_of_le (tlow_lt hcwb)
            (Nat.pow_le_pow_right (by norm_num) (by
              calc wb = wb * 1 := by ring
              _ ≤ wb * m := Nat.mul_le_mul_left wb hm1))
        have hu3 : thigh wb A B C (shlGo wb s ws 0).2 <<< (wb * 1) < 2 ^ (wb * m) := by
          rw [Nat.mul_one]
          have := shl_lt_pow (thigh_lt_pow (A := A) (B := B) (C := C) hcwb) wb
          refine lt_of_lt_of_le this (Nat.pow_le_pow_right (by norm_num) ?_)
          calc wb + wb = wb * 2 := by ring
          _ ≤ wb * m := Nat.mul_le_mul_left wb hm2
        exact Nat.xor_lt_two_pow (Nat.xor_lt_two_pow hu1 hu2) hu3
      · have hsplit : cmul (shlGo wb s ws 0).2 (rpoly (wb * m) A B C) =
            ((shlGo wb s ws 0).2 <<< (wb * m)) ^^^
              (tlow wb A B C (shlGo wb s ws 0).2 ^^^
                (thigh wb A B C (shlGo wb s ws 0).2) <<< wb) := by
          rw [rpoly, cmul_xor_right, cmul_pow_shl_right,
            tlow_thigh_split (le_of_lt hA) (le_of_lt hBwb) (le_of_lt hCwb) hcwb]
        rw [hsplit]
        conv_lhs => rw [split_low_high (wval wb ws <<< s) (wb * m), ← g2]
        rw [Nat.mul_zero, Nat.shiftLeft_zero, Nat.mul_one]
        simp only [Nat.xor_assoc, Nat.xor_comm, xor_left_comm, xor_cancel_l,
          Nat.xor_self, Nat.xor_zero, Nat.zero_xor]
    · rw [xorAt_length, xorAt_length, g3, hm]
    · exact xorAt_valid (xorAt_valid g4 (tlow_lt hcwb)) (thigh_lt_pow hcwb)

/-- Semantics of `shlt`: multiplication by `x ^ wb` modulo the reduction
polynomial. -/
theorem shlt_spec {wb m A B C : Nat} (hA : A < wb) (hBA : B ≤ A) (hCB : C ≤ B)
    (hm1 : 1 ≤ m) (ws : List Nat) (hv : wordsValid wb ws) (hm : ws.length = m) :
    wval wb (shlt wb A B C ws) =
      polyMod ((wval wb ws) <<< wb) (rpoly (wb * m) A B C) ∧
    (shlt wb A B C ws).length = m ∧ wordsValid wb (shlt wb A B C ws) := by
  obtain ⟨hBwb, hCwb, ht1, ht2, hlog, hne⟩ := param_facts hA hBA hCB hm1
  unfold shlt
  by_cases h1 : ws.length = 1
  · rw [if_pos h1]
    obtain ⟨d, hd⟩ := List.length_eq_one.mp h1
    subst hd
    have hm' : m = 1 := by omega
    subst hm'
    have hdlt : d < 2 ^ wb := hv d (List.mem_cons_self d [])
    rw [Nat.mul_one] at hlog hne ⊢
    have hz : (0:Nat) < 2 ^ wb := Nat.pos_pow_of_pos _ two_pos
    refine ⟨?_, rfl, ?_⟩
    · simp only [List.getD_cons_zero]
      rw [wval_cons, wval_nil, Nat.zero_shiftLeft, Nat.xor_zero,
        pcLoop_spec hA hBA hCB _ _ hz hdlt, Nat.zero_xor, wval_cons, wval_nil,
        Nat.zero_shiftLeft, Nat.xor_zero]
    · intro w hw
      rcases List.mem_cons.mp hw with h | h
      · rw [h]
        simp only [List.getD_cons_zero]
        rw [pcLoop_spec hA hBA hCB _ _ hz hdlt]
        have := polyMod_lt (0 ^^^ d <<< wb) _ hne
        rw [hlog] at this
        exact this
      · simp at h
  · rw [if_neg h1]
    have hm2 : 2 ≤ m := by omega
    have hne2 : ws ≠ [] := by
      intro h
      rw [h] at hm
      simp at hm
      omega
    set c := ws.getD (ws.length - 1) 0 with hcdef
    have hcget : c = ws.getLast hne2 := by
      rw [hcdef, List.getLast_eq_get, List.getD_eq_get ws 0 (by omega)]
    have hclt : c < 2 ^ wb := by
      rw [hcget]
      exact hv _ (List.getLast_mem hne2)
    have hdecomp : ws = ws.dropLast ++ [c] := by
      rw [hcget]
      exact (List.dropLast_append_getLast hne2).symm
    have hdlen : ws.dropLast.length = m - 1 := by
      rw [List.length_dropLast, hm]
    have hdval : wval wb ws = wval wb ws.dropLast ^^^ c <<< (wb * (m - 1)) := by
      conv_lhs => rw [hdecomp]
      rw [wval_append, hdlen, wval_cons, wval_nil, Nat.zero_shiftLeft, Nat.xor_zero]
    have hdv : wordsValid wb ws.dropLast := fun u hu => hv u (List.dropLast_subset ws hu)
    have hdvlt : wval wb ws.dropLast < 2 ^ (wb * (m - 1)) := hdlen ▸ wval_lt hdv
    have hlen1 : 1 < (tlow wb A B C c :: ws.dropLast).length := by
      simp only [List.length_cons]
      omega
    refine ⟨?_, ?_, ?_⟩
    · rw [wval_xorAt _ hlen1, wval_cons]
      refine (polyMod_unique hne (q := c) ?_ ?_).symm
      · rw [hlog]
        have hu1 : tlow wb A B C c < 2 ^ (wb * m) :=
          lt_of_lt_of_le (tlow_lt hclt) (Nat.pow_le_pow_right (by norm_num) (by
            calc wb = wb * 1 := by ring
            _ ≤ wb * m := Nat.mul_le_mul_left wb hm1))
        have hu2 : (wval wb ws.dropLast) <<< wb < 2 ^ (wb * m) := by
          have := shl_lt_pow hdvlt wb
          refine lt_of_lt_of_le this (Nat.pow_le_pow_right (by norm_num) ?_)
          have : wb * (m - 1) + wb = wb * m := by
            have h3 : m - 1 + 1 = m := by omega
            calc wb * (m - 1) + wb = wb * (m - 1 + 1) := by ring
            _ = wb * m := by rw [h3]
          omega
        have hu3 : (thigh wb A B C c) <<< (wb * 1) < 2 ^ (wb * m) := by
          rw [Nat.mul_one]
          have := shl_lt_pow (thigh_lt_pow (A := A) (B := B) (C := C) hclt) wb
          refine lt_of_lt_of_le this (Nat.pow_le_pow_right (by norm_num) ?_)
          calc wb + wb = wb * 2 := by ring
          _ ≤ wb * m := Nat.mul_le_mul_left wb hm2
        exact Nat.xor_lt_two_pow (Nat.xor_lt_two_pow hu1 hu2) hu3
      · have hsplit : cmul c (rpoly (wb * m) A B C) =
            (c <<< (wb * m)) ^^^ (tlow wb A B C c ^^^ (thigh wb A B C c) <<< wb) := by
          rw [rpoly, cmul_xor_right, cmul_pow_shl_right,
            tlow_thigh_split (le_of_lt hA) (le_of_lt hBwb) (le_of_lt hCwb) hclt]
        rw [hsplit, hdval, shl_xor, Nat.shiftLeft_shiftLeft, Nat.mul_one]
        have harith : wb * (m - 1) + wb = wb * m := by
          have h3 : m - 1 + 1 = m := by omega
          calc wb * (m - 1) + wb = wb * (m - 1 + 1) := by ring
          _ = wb * m := by rw [h3]
        rw [harith]
        simp only [Nat.xor_assoc, Nat.xor_comm, xor_left_comm, xor_cancel_l,
          Nat.xor_self, Nat.xor_zero, Nat.zero_xor]
    · rw [xorAt_length]
      simp only [List.length_cons]
      omega
    · refine xorAt_valid ?_ (thigh_lt_pow hclt)
      intro w hw
      rcases List.mem_cons.mp hw with h | h
      · rw [h]
        exact tlow_lt hclt
      · exact hdv w h

/-- Invariant of the carry-propagation loop: after the first `K` carry words
have been folded in, the value together with the remaining carries is
congruent to the original `2n`-bit value. -/
theorem pcStepM_aux {wb m A B C : Nat} (hA : A < wb) (hBA : B ≤ A) (hCB : C ≤ B)
    (hm2 : 2 ≤ m) (cs : List Nat) (hcv : wordsValid wb cs) (hcl : cs.length = m)
    (ws : List Nat) (hwv : wordsValid wb ws) (hwl : ws.length = m) :
    ∀ K, K ≤ m →
    polyMod (wval wb ((List.range K).foldl (pcStepM wb m A B C cs) ws) ^^^
        (wval wb (cs.drop K)) <<< (wb * K + wb * m)) (rpoly (wb * m) A B C) =
      polyMod (wval wb ws ^^^ (wval wb cs) <<< (wb * m)) (rpoly (wb * m) A B C) ∧
    ((List.range K).foldl (pcStepM wb m A B C cs) ws).length = m ∧
    wordsValid wb ((List.range K).foldl (pcStepM wb m A B C cs) ws) := by
  obtain ⟨hBwb, hCwb, ht1, ht2, hlog, hne⟩ := param_facts (m := m) hA hBA hCB (by omega)
  intro K
  induction K with
  | zero =>
    intro _
    refine ⟨?_, hwl, hwv⟩
    simp only [List.range_zero, List.foldl_nil, List.drop_zero, Nat.mul_zero, Nat.zero_add]
  | succ K ih =>
    intro hK1
    obtain ⟨ih1, ih2, ih3⟩ := ih (by omega)
    have hKm : K < m := by omega
    have hKcs : K < cs.length := by omega
    have hc : cs.getD K 0 < 2 ^ wb := by
      rw [List.getD_eq_get cs 0 hKcs]
      exact hcv _ (List.get_mem cs K hKcs)
    have hdropK : cs.drop K = cs.getD K 0 :: cs.drop (K + 1) := by
      rw [List.getD_eq_get cs 0 hKcs]
      exact (List.drop_eq_get_cons hKcs).symm ▸ rfl
    have hfold : (List.range (K + 1)).foldl (pcStepM wb m A B C cs) ws =
        pcStepM wb m A B C cs ((List.range K).foldl (pcStepM wb m A B C cs) ws) K := by
      rw [List.range_succ, List.foldl_append, List.foldl_cons, List.foldl_nil]
    set fK := (List.range K).foldl (pcStepM wb m A B C cs) ws with hfK
    set c := cs.getD K 0 with hcdef
    have hsplit : cmul c (rpoly (wb * m) A B C) =
        (c <<< (wb * m)) ^^^ (tlow wb A B C c ^^^ (thigh wb A B C c) <<< wb) := by
      rw [rpoly, cmul_xor_right, cmul_pow_shl_right,
        tlow_thigh_split (le_of_lt hA) (le_of_lt hBwb) (le_of_lt hCwb) hc]
    have hKlen : K < fK.length := by omega
    have hdval : wval wb (cs.drop K) = c ^^^ (wval wb (cs.drop (K + 1))) <<< wb := by
      rw [hdropK, wval_cons]
    rw [hfold]
    unfold pcStepM
    rw [← hcdef]
    by_cases hK2 : K + 1 < m
    · rw [if_pos hK2]
      have hlen2 : K + 1 < (xorAt fK K (tlow wb A B C c)).length := by
        rw [xorAt_length]
        omega
      refine ⟨?_, by rw [xorAt_length, xorAt_length]; exact ih2, ?_⟩
      · rw [wval_xorAt _ hlen2, wval_xorAt _ hKlen]
        have hq : cmul (c <<< (wb * K)) (rpoly (wb * m) A B C) =
            c <<< (wb * K + wb * m) ^^^
              ((tlow wb A B C c) <<< (wb * K) ^^^
                (thigh wb A B C c) <<< (wb * (K + 1))) := by
          rw [cmul_shl_left, hsplit, shl_xor, shl_xor, Nat.shiftLeft_shiftLeft,
            Nat.shiftLeft_shiftLeft]
          have e1 : wb * m + wb * K = wb * K + wb * m := by ring
          have e2 : wb + wb * K = wb * (K + 1) := by ring
          rw [e1, e2]
        have goal_eq : wval wb fK ^^^ (tlow wb A B C c) <<< (wb * K) ^^^
              (thigh wb A B C c) <<< (wb * (K + 1)) ^^^
              (wval wb (cs.drop (K + 1))) <<< (wb * (K + 1) + wb * m) =
            (wval wb fK ^^^ (wval wb (cs.drop K)) <<< (wb * K + wb * m)) ^^^
              cmul (c <<< (wb * K)) (rpoly (wb * m) A B C) := by
          rw [hq, hdval, shl_xor, Nat.shiftLeft_shiftLeft]
          have e3 : wb + (wb * K + wb * m) = wb * (K + 1) + wb * m := by ring
          rw [e3]
          simp only [Nat.xor_assoc, Nat.xor_comm, xor_left_comm, xor_cancel_l,
            Nat.xor_self, Nat.xor_zero, Nat.zero_xor]
        rw [goal_eq, polyMod_absorb hne, ih1]
      · exact xorAt_valid (xorAt_valid ih3 (tlow_lt hc)) (thigh_lt_pow hc)
    · rw [if_neg hK2]
      have hKm1 : K + 1 = m := by omega
      have hdropm : cs.drop (K + 1) = [] := by
        apply List.drop_eq_nil_of_le
        omega
      have hc2 : thigh wb A B C c < 2 ^ wb := thigh_lt_pow hc
      have hlen0 : 0 < (xorAt fK K (tlow wb A B C c)).length := by
        rw [xorAt_length]
        omega
      have hlen1 : 1 < (xorAt (xorAt fK K (tlow wb A B C c)) 0
          (tlow wb A B C (thigh wb A B C c))).length := by
        rw [xorAt_length, xorAt_length]
        omega
      refine ⟨?_, by rw [xorAt_length, xorAt_length, xorAt_length]; exact ih2, ?_⟩
      · rw [wval_xorAt _ hlen1, wval_xorAt _ hlen0, wval_xorAt _ hKlen]
        have hsplit2 : cmul (thigh wb A B C c) (rpoly (wb * m) A B C) =
            ((thigh wb A B C c) <<< (wb * m)) ^^^
              (tlow wb A B C (thigh wb A B C c) ^^^
                (thigh wb A B C (thigh wb A B C c)) <<< wb) := by
          rw [rpoly, cmul_xor_right, cmul_pow_shl_right,
            tlow_thigh_split (le_of_lt hA) (le_of_lt hBwb) (le_of_lt hCwb) hc2]
        have hq : cmul ((c <<< (wb * K)) ^^^ thigh wb A B C c)
              (rpoly (wb * m) A B C) =
            c <<< (wb * K + wb * m) ^^^
              ((tlow wb A B C c) <<< (wb * K) ^^^
                (tlow wb A B C (thigh wb A B C c) ^^^
                  (thigh wb A B C (thigh wb A B C c)) <<< wb)) := by
          rw [cmul_xor_left, cmul_shl_left, hsplit, hsplit2, shl_xor, shl_xor,
            Nat.shiftLeft_shiftLeft, Nat.shiftLeft_shiftLeft]
          have e1 : wb * m + wb * K = wb * K + wb * m := by ring
          have e2 : wb + wb * K = wb * (K + 1) := by ring
          rw [e1, e2, hKm1]
          simp only [Nat.xor_assoc, Nat.xor_comm, xor_left_comm, xor_cancel_l,
            Nat.xor_self, Nat.xor_zero, Nat.zero_xor]
        have goal_eq : wval wb fK ^^^ (tlow wb A B C c) <<< (wb * K) ^^^
              (tlow wb A B C (thigh wb A B C c)) <<< (wb * 0) ^^^
              (thigh wb A B C (thigh wb A B C c)) <<< (wb * 1) ^^^
              (wval wb (cs.drop (K + 1))) <<< (wb * (K + 1) + wb * m) =
            (wval wb fK ^^^ (wval wb (cs.drop K)) <<< (wb * K + wb * m)) ^^^
              cmul ((c <<< (wb * K)) ^^^ thigh wb A B C c)
                (rpoly (wb * m) A B C) := by
          rw [hq, hdval, hdropm, wval_nil, Nat.zero_shiftLeft, Nat.xor_zero,
            Nat.zero_shiftLeft, Nat.xor_zero, Nat.mul_zero,
            Nat.shiftLeft_zero, Nat.mul_one]
          simp only [Nat.xor_assoc, Nat.xor_comm, xor_left_comm, xor_cancel_l,
            Nat.xor_self, Nat.xor_zero, Nat.zero_xor]
        rw [goal_eq, polyMod_absorb hne, ih1]
      · exact xorAt_valid (xorAt_valid (xorAt_valid ih3 (tlow_lt hc)) (tlow_lt hc2))
          (thigh_lt_pow hc2)

/-- Semantics of `propagate_carries`: it computes the remainder of the
`2n`-bit value `words + carry · x^n` modulo the reduction polynomial. -/
theorem propagate_carries_spec {wb m A B C : Nat} (hA : A < wb) (hBA : B ≤ A)
    (hCB : C ≤ B) (hm1 : 1 ≤ m) (ws cs : List Nat) (hwv : wordsValid wb ws)
    (hcv : wordsValid wb cs) (hwl : ws.length = m) (hcl : cs.length = m) :
    wval wb (propagate_carries wb m A B C ws cs) =
      polyMod (wval wb ws ^^^ (wval wb cs) <<< (wb * m)) (rpoly (wb * m) A B C) ∧
    (propagate_carries wb m A B C ws cs).length = m ∧
    wordsValid wb (propagate_carries wb m A B C ws cs) := by
  obtain ⟨hBwb, hCwb, ht1, ht2, hlog, hne⟩ := param_facts hA hBA hCB hm1
  unfold propagate_carries
  by_cases hm : m = 1
  · subst hm
    rw [if_pos rfl]
    obtain ⟨w, hw⟩ := List.length_eq_one.mp hwl
    obtain ⟨cc, hcc⟩ := List.length_eq_one.mp hcl
    subst hw hcc
    have hwlt : w < 2 ^ wb := hwv w (List.mem_cons_self w [])
    have hclt : cc < 2 ^ wb := hcv cc (List.mem_cons_self cc [])
    rw [Nat.mul_one] at hlog hne ⊢
    have hval : ∀ z : Nat, wval wb [z] = z := by
      intro z
      simp [wval_cons, wval_nil, Nat.zero_shiftLeft]
    refine ⟨?_, rfl, ?_⟩
    · simp only [List.getD_cons_zero]
      rw [hval, hval, hval, pcLoop_spec hA hBA hCB _ _ hwlt hclt]
    · intro u hu
      rcases List.mem_cons.mp hu with h | h
      · rw [h]
        simp only [List.getD_cons_zero]
        rw [pcLoop_spec hA hBA hCB _ _ hwlt hclt]
        have := polyMod_lt (w ^^^ cc <<< wb) _ hne
        rw [hlog] at this
        exact this
      · simp at h
  · rw [if_neg hm]
    have hm2 : 2 ≤ m := by omega
    obtain ⟨h1, h2, h3⟩ := pcStepM_aux hA hBA hCB hm2 cs hcv hcl ws hwv hwl m le_rfl
    rw [List.drop_eq_nil_of_le (by omega), wval_nil, Nat.zero_shiftLeft,
      Nat.xor_zero] at h1
    have hflt : wval wb ((List.range m).foldl (pcStepM wb m A B C cs) ws) < 2 ^ (wb * m) := by
      have h4 := wval_lt h3
      rw [h2] at h4
      exact h4
    rw [polyMod_of_lt (by rw [hlog]; exact hflt)] at h1
    exact ⟨h1, h2, h3⟩

theorem mod_pow_succ (x j : Nat) :
    x % 2 ^ (j + 1) = (x % 2 ^ j) ^^^ (if x.testBit j = true then 2 ^ j else 0) := by
  apply Nat.eq_of_testBit_eq
  intro i
  rw [Nat.testBit_mod_two_pow, Nat.testBit_xor, Nat.testBit_mod_two_pow]
  by_cases hij : i < j
  · have h1 : i < j + 1 := by omega
    have h2 : (if x.testBit j = true then 2 ^ j else 0).testBit i = false := by
      by_cases hb : x.testBit j = true <;>
        simp [hb, Nat.testBit_two_pow, Nat.zero_testBit, show ¬ j = i by omega]
    rw [h2]
    simp [h1, hij]
  · by_cases hie : i = j
    · subst hie
      have h1 : i < i + 1 := by omega
      by_cases hb : x.testBit i = true <;>
        simp [hb, Nat.testBit_two_pow, Nat.zero_testBit, h1, hij]
    · have h1 : ¬ i < j + 1 := by omega
      have h2 : (if x.testBit j = true then 2 ^ j else 0).testBit i = false := by
        by_cases hb : x.testBit j = true <;>
          simp [hb, Nat.testBit_two_pow, Nat.zero_testBit, show ¬ j = i by omega]
      rw [h2]
      simp [h1, hij]

theorem two_pow_shl (j T : Nat) : (2 ^ j : Nat) <<< T = 2 ^ (T + j) := by
  rw [← one_shl, Nat.shiftLeft_shiftLeft, one_shl, Nat.add_comm]

/-- Invariant of the per-word inner loop of `mul_as_add`: after the first
`j` bits of the word have been processed, the running value has been
shifted `j` more times and the result has accumulated the corresponding
partial carryless product. -/
theorem mulBitStep_aux {wb m A B C : Nat} (hA : A < wb) (hBA : B ≤ A) (hCB : C ≤ B)
    (hm1 : 1 ≤ m) (word vx V T : Nat) (st : List Nat × List Nat)
    (hs1 : wval wb st.1 = polyMod (vx <<< T) (rpoly (wb * m) A B C))
    (hs2 : st.1.length = m) (hs3 : wordsValid wb st.1)
    (hr1 : wval wb st.2 = polyMod (cmul V vx) (rpoly (wb * m) A B C))
    (hr2 : st.2.length = m) (hr3 : wordsValid wb st.2) :
    ∀ j, j ≤ wb →
    wval wb ((List.range j).foldl (mulBitStep wb A B C word) st).1 =
      polyMod (vx <<< (T + j)) (rpoly (wb * m) A B C) ∧
    ((List.range j).foldl (mulBitStep wb A B C word) st).1.length = m ∧
    wordsValid wb ((List.range j).foldl (mulBitStep wb A B C word) st).1 ∧
    wval wb ((List.range j).foldl (mulBitStep wb A B C word) st).2 =
      polyMod (cmul (V ^^^ (word % 2 ^ j) <<< T) vx) (rpoly (wb * m) A B C) ∧
    ((List.range j).foldl (mulBitStep wb A B C word) st).2.length = m ∧
    wordsValid wb ((List.range j).foldl (mulBitStep wb A B C word) st).2 := by
  obtain ⟨hBwb, hCwb, ht1, ht2, hlog, hne⟩ := param_facts (m := m) hA hBA hCB hm1
  intro j
  induction j with
  | zero =>
    intro _
    simp only [List.range_zero, List.foldl_nil, pow_zero, Nat.mod_one,
      Nat.zero_shiftLeft, Nat.xor_zero, Nat.add_zero]
    exact ⟨hs1, hs2, hs3, hr1, hr2, hr3⟩
  | succ j ih =>
    intro hj1
    obtain ⟨ih1, ih2, ih3, ih4, ih5, ih6⟩ := ih (by omega)
    have hfold : (List.range (j + 1)).foldl (mulBitStep wb A B C word) st =
        mulBitStep wb A B C word ((List.range j).foldl (mulBitStep wb A B C word) st) j := by
      rw [List.range_succ, List.foldl_append, List.foldl_cons, List.foldl_nil]
    rw [hfold, mulBitStep]
    have hshl := shl1_spec hA hBA hCB hm1 _ ih3 ih2
    by_cases hbit : word &&& 1 <<< j ≠ 0
    · rw [if_pos hbit]
      have htb : word.testBit j = true := testBit_land_pow.mp hbit
      have hfst :
          wval wb (shl1 wb A B C ((List.range j).foldl (mulBitStep wb A B C word) st).1) =
            polyMod (vx <<< (T + (j + 1))) (rpoly (wb * m) A B C) := by
        rw [hshl.1, ih1, ← polyMod_shl hne, Nat.shiftLeft_shiftLeft]
        have e : T + j + 1 = T + (j + 1) := by omega
        rw [e]
      refine ⟨hfst, hshl.2.1, hshl.2.2, ?_, ?_, ?_⟩
      · show wval wb (addE _ _) = _
        rw [wval_addE (by rw [ih5, ih2]), ih4, ih1, ← polyMod_xor hne,
          ← cmul_two_pow_left (T + j) vx, ← cmul_xor_left]
        congr 2
        rw [mod_pow_succ, htb, if_pos rfl, shl_xor, two_pow_shl, Nat.xor_assoc]
      · show (addE _ _).length = m
        rw [addE_length, ih5, ih2]
        omega
      · exact addE_valid ih6 ih3
    · rw [if_neg hbit]
      have htb : word.testBit j = false := by
        by_contra hb
        exact hbit (testBit_land_pow.mpr (Bool.not_eq_false _ ▸ hb))
      have hfst :
          wval wb (shl1 wb A B C ((List.range j).foldl (mulBitStep wb A B C word) st).1) =
            polyMod (vx <<< (T + (j + 1))) (rpoly (wb * m) A B C) := by
        rw [hshl.1, ih1, ← polyMod_shl hne, Nat.shiftLeft_shiftLeft]
        have e : T + j + 1 = T + (j + 1) := by omega
        rw [e]
      refine ⟨hfst, hshl.2.1, hshl.2.2, ?_, ih5, ih6⟩
      rw [ih4]
      congr 2
      rw [mod_pow_succ, htb]
      simp

/-- Semantics of one word step of `mul_as_add`. -/
theorem mulStep_spec {wb m A B C : Nat} (hA : A < wb) (hBA : B ≤ A) (hCB : C ≤ B)
    (hm1 : 1 ≤ m) (word vx V T : Nat) (hword : word < 2 ^ wb)
    (st : List Nat × List Nat)
    (hs1 : wval wb st.1 = polyMod (vx <<< T) (rpoly (wb * m) A B C))
    (hs2 : st.1.length = m) (hs3 : wordsValid wb st.1)
    (hr1 : wval wb st.2 = polyMod (cmul V vx) (rpoly (wb * m) A B C))
    (hr2 : st.2.length = m) (hr3 : wordsValid wb st.2) :
    wval wb (mulStep wb A B C word st).1 =
      polyMod (vx <<< (T + wb)) (rpoly (wb * m) A B C) ∧
    (mulStep wb A B C word st).1.length = m ∧
    wordsValid wb (mulStep wb A B C word st).1 ∧
    wval wb (mulStep wb A B C word st).2 =
      polyMod (cmul (V ^^^ word <<< T) vx) (rpoly (wb * m) A B C) ∧
    (mulStep wb A B C word st).2.length = m ∧
    wordsValid wb (mulStep wb A B C word st).2 := by
  have h := mulBitStep_aux hA hBA hCB hm1 word vx V T st hs1 hs2 hs3 hr1 hr2 hr3 wb le_rfl
  rw [mod_pow_eq_self hword] at h
  exact h

/-- Semantics of the outer loop of `mul_as_add` over the words of the
multiplier. -/
theorem mulFold_aux {wb m A B C : Nat} (hA : A < wb) (hBA : B ≤ A) (hCB : C ≤ B)
    (hm1 : 1 ≤ m) (vx : Nat) :
    ∀ (ys : List Nat) (st : List Nat × List Nat) (V T : Nat),
    wordsValid wb ys →
    wval wb st.1 = polyMod (vx <<< T) (rpoly (wb * m) A B C) →
    st.1.length = m → wordsValid wb st.1 →
    wval wb st.2 = polyMod (cmul V vx) (rpoly (wb * m) A B C) →
    st.2.length = m → wordsValid wb st.2 →
    wval wb (ys.foldl (fun st word => mulStep wb A B C word st) st).2 =
      polyMod (cmul (V ^^^ (wval wb ys) <<< T) vx) (rpoly (wb * m) A B C) ∧
    (ys.foldl (fun st word => mulStep wb A B C word st) st).2.length = m ∧
    wordsValid wb (ys.foldl (fun st word => mulStep wb A B C word st) st).2
  | [], st, V, T, _, hs1, hs2, hs3, hr1, hr2, hr3 => by
    simp only [List.foldl_nil, wval_nil, Nat.zero_shiftLeft, Nat.xor_zero]
    exact ⟨hr1, hr2, hr3⟩
  | w :: ys, st, V, T, hyv, hs1, hs2, hs3, hr1, hr2, hr3 => by
    have hw : w < 2 ^ wb := hyv w (List.mem_cons_self w ys)
    have hyv' : wordsValid wb ys := fun u hu => hyv u (List.mem_cons_of_mem w hu)
    obtain ⟨g1, g2, g3, g4, g5, g6⟩ :=
      mulStep_spec hA hBA hCB hm1 w vx V T hw st hs1 hs2 hs3 hr1 hr2 hr3
    rw [List.foldl_cons]
    have hrec := mulFold_aux hA hBA hCB hm1 vx ys (mulStep wb A B C w st)
      (V ^^^ w <<< T) (T + wb) hyv' g1 g2 g3 g4 g5 g6
    refine ⟨?_, hrec.2.1, hrec.2.2⟩
    rw [hrec.1]
    congr 2
    rw [wval_cons, shl_xor, Nat.xor_assoc, Nat.shiftLeft_shiftLeft, Nat.add_comm wb T]

/-- Semantics of `GF2n::mul_as_add`: it computes the carryless product of
the two values reduced modulo the reduction polynomial. -/
theorem mul_as_add_spec {wb m A B C : Nat} (hA : A < wb) (hBA : B ≤ A) (hCB : C ≤ B)
    (hm1 : 1 ≤ m) (x y : List Nat) (hxv : wordsValid wb x) (hyv : wordsValid wb y)
    (hxl : x.length = m) (hyl : y.length = m) :
    wval wb (mul_as_add wb A B C x y) =
      polyMod (cmul (wval wb y) (wval wb x)) (rpoly (wb * m) A B C) ∧
    (mul_as_add wb A B C x y).length = m ∧
    wordsValid wb (mul_as_add wb A B C x y) := by
  obtain ⟨hBwb, hCwb, ht1, ht2, hlog, hne⟩ := param_facts (m := m) hA hBA hCB hm1
  have hvx : wval wb x < 2 ^ (wb * m) := hxl ▸ wval_lt hxv
  have h0 : wval wb (List.replicate x.length 0) =
      polyMod (cmul 0 (wval wb x)) (rpoly (wb * m) A B C) := by
    rw [wval_replicate_zero, cmul_zero_left,
      polyMod_of_lt (by rw [hlog]; exact Nat.pos_pow_of_pos _ two_pos)]
  have hs1 : wval wb x = polyMod ((wval wb x) <<< 0) (rpoly (wb * m) A B C) := by
    rw [Nat.shiftLeft_zero, polyMod_of_lt (by rw [hlog]; exact hvx)]
  have h := mulFold_aux hA hBA hCB hm1 (wval wb x) y (x, List.replicate x.length 0) 0 0
    hyv hs1 hxl hxv h0 (by rw [List.length_replicate, hxl])
    (replicate_zero_valid _ _)
  rw [Nat.zero_xor, Nat.shiftLeft_zero] at h
  exact ⟨h.1, h.2.1, h.2.2⟩

/-- Joint value of the split `2m`-word accumulator of the fused-carry and
CLMUL multipliers. -/
def wval2 (wb m : Nat) (st : List Nat × List Nat) : Nat :=
  wval wb st.1 ^^^ (wval wb st.2) <<< (wb * m)

/-- Shape invariant of the split accumulator. -/
def stValid (wb m : Nat) (st : List Nat × List Nat) : Prop :=
  st.1.length = m ∧ st.2.length = m ∧ wordsValid wb st.1 ∧ wordsValid wb st.2

theorem acc2_spec {wb m : Nat} {st : List Nat × List Nat} (hst : stValid wb m st)
    (idx v : Nat) (hidx : idx < 2 * m) (hv : v < 2 ^ wb) :
    wval2 wb m (acc2 m st idx v) = wval2 wb m st ^^^ v <<< (wb * idx) ∧
    stValid wb m (acc2 m st idx v) := by
  obtain ⟨hl1, hl2, hv1, hv2⟩ := hst
  unfold acc2 wval2
  by_cases h : idx < m
  · rw [if_pos h]
    refine ⟨?_, ?_⟩
    · show wval wb (xorAt st.1 idx v) ^^^ (wval wb st.2) <<< (wb * m) = _
      rw [wval_xorAt v (by omega)]
      simp only [Nat.xor_assoc, Nat.xor_comm, xor_left_comm]
    · exact ⟨by rw [xorAt_length]; exact hl1, hl2, xorAt_valid hv1 hv, hv2⟩
  · rw [if_neg h]
    refine ⟨?_, ?_⟩
    · show wval wb st.1 ^^^ (wval wb (xorAt st.2 (idx - m) v)) <<< (wb * m) = _
      rw [wval_xorAt v (by omega), shl_xor, Nat.shiftLeft_shiftLeft]
      have e : wb * (idx - m) + wb * m = wb * idx := by
        have hm : m ≤ idx := by omega
        calc wb * (idx - m) + wb * m = wb * (idx - m + m) := by ring
        _ = wb * idx := by rw [Nat.sub_add_cancel hm]
      rw [e, Nat.xor_assoc]
    · exact ⟨hl1, by rw [xorAt_length]; exact hl2, hv1, xorAt_valid hv2 hv⟩

/-- Accumulation invariant of the innermost fused-carry loop: the first `K`
words of `x`, shifted by `j` bits and `i` words, have been added. -/
theorem fusedK_aux {wb m : Nat} (x : List Nat) (i j : Nat) (hxv : wordsValid wb x)
    (hxl : x.length = m) (hi : i < m) (hj : j < wb) (st : List Nat × List Nat)
    (hst : stValid wb m st) :
    ∀ K, K ≤ m →
    wval2 wb m ((List.range K).foldl (fusedK wb m x i j) st) =
      wval2 wb m st ^^^ (wval wb (x.take K)) <<< (wb * i + j) ∧
    stValid wb m ((List.range K).foldl (fusedK wb m x i j) st) := by
  intro K
  induction K with
  | zero =>
    intro _
    simp only [List.range_zero, List.foldl_nil, List.take_zero, wval_nil,
      Nat.zero_shiftLeft, Nat.xor_zero]
    exact ⟨trivial, hst⟩
  | succ K ih =>
    intro hK1
    obtain ⟨ih1, ih2⟩ := ih (by omega)
    have hKm : K < m := by omega
    have hKx : K < x.length := by omega
    have hxk : x.getD K 0 < 2 ^ wb := by
      rw [List.getD_eq_get x 0 hKx]
      exact hxv _ (List.get_mem x K hKx)
    have hfold : (List.range (K + 1)).foldl (fusedK wb m x i j) st =
        fusedK wb m x i j ((List.range K).foldl (fusedK wb m x i j) st) K := by
      rw [List.range_succ, List.foldl_append, List.foldl_cons, List.foldl_nil]
    have htake : x.take (K + 1) = x.take K ++ [x.getD K 0] := by
      rw [List.getD_eq_get x 0 hKx, ← List.concat_eq_append]
      exact (List.take_concat_get x K hKx).symm
    have htlen : (x.take K).length = K := by
      rw [List.length_take]
      omega
    have htval : wval wb (x.take (K + 1)) =
        wval wb (x.take K) ^^^ (x.getD K 0) <<< (wb * K) := by
      rw [htake, wval_append, htlen, wval_cons, wval_nil, Nat.zero_shiftLeft,
        Nat.xor_zero]
    rw [hfold, fusedK]
    have hv1 : (x.getD K 0 <<< j) % 2 ^ wb < 2 ^ wb :=
      Nat.mod_lt _ (Nat.pos_pow_of_pos _ two_pos)
    have hidx1 : K + i < 2 * m := by omega
    obtain ⟨a1, a2⟩ := acc2_spec ih2 (K + i) ((x.getD K 0 <<< j) % 2 ^ wb)
      hidx1 hv1
    by_cases hj0 : j ≠ 0
    · rw [if_pos hj0]
      have hv2 : x.getD K 0 >>> (wb - j) < 2 ^ wb :=
        lt_of_le_of_lt (shr_le_self _ _) hxk
      have hidx2 : K + i + 1 < 2 * m := by omega
      obtain ⟨b1, b2⟩ := acc2_spec a2 (K + i + 1)
        (x.getD K 0 >>> (wb - j)) hidx2 hv2
      refine ⟨?_, b2⟩
      have hsplitk : (x.getD K 0 <<< j) % 2 ^ wb ^^^
          (x.getD K 0 >>> (wb - j)) <<< wb = x.getD K 0 <<< j := by
        conv_rhs => rw [split_low_high (x.getD K 0 <<< j) wb,
          shl_shr_of_le _ j wb (le_of_lt hj)]
      have e1 : ((x.getD K 0 <<< j) % 2 ^ wb) <<< (wb * (K + i)) ^^^
          ((x.getD K 0 >>> (wb - j)) <<< (wb * (K + i + 1))) =
          (x.getD K 0) <<< (wb * K + (wb * i + j)) := by
        have e2 : wb * (K + i + 1) = wb + wb * (K + i) := by ring
        rw [e2, ← Nat.shiftLeft_shiftLeft _ wb, ← shl_xor, hsplitk,
          Nat.shiftLeft_shiftLeft]
        congr 1
        ring
      rw [b1, a1, ih1, htval]
      conv_rhs => rw [shl_xor, Nat.shiftLeft_shiftLeft, ← e1]
      simp only [Nat.xor_assoc, Nat.xor_comm, xor_left_comm]
    · rw [if_neg hj0]
      push_neg at hj0
      subst hj0
      refine ⟨?_, a2⟩
      have e1 : ((x.getD K 0 <<< 0) % 2 ^ wb) <<< (wb * (K + i)) =
          (x.getD K 0) <<< (wb * K + (wb * i + 0)) := by
        rw [Nat.shiftLeft_zero, mod_pow_eq_self hxk]
        congr 1
        ring
      rw [a1, ih1, htval]
      conv_rhs => rw [shl_xor, Nat.shiftLeft_shiftLeft, ← e1]
      simp only [Nat.xor_assoc, Nat.xor_comm, xor_left_comm]

/-- Peeling the last word off a truncated word list. -/
theorem wval_take_succ {wb : Nat} (x : List Nat) (K : Nat) (hK : K < x.length) :
    wval wb (x.take (K + 1)) = wval wb (x.take K) ^^^ (x.getD K 0) <<< (wb * K) := by
  have htake : x.take (K + 1) = x.take K ++ [x.getD K 0] := by
    rw [List.getD_eq_get x 0 hK, ← List.concat_eq_append]
    exact (List.take_concat_get x K hK).symm
  have htlen : (x.take K).length = K := by
    rw [List.length_take]
    omega
  rw [htake, wval_append, htlen, wval_cons, wval_nil, Nat.zero_shiftLeft,
    Nat.xor_zero]

/-- Accumulation invariant of the bit loop of the fused-carry multiplier:
the low `J` bits of the multiplier word have been processed. -/
theorem fusedJ_aux {wb m : Nat} (x : List Nat) (word i : Nat) (hxv : wordsValid wb x)
    (hxl : x.length = m) (hi : i < m) (st : List Nat × List Nat)
    (hst : stValid wb m st) :
    ∀ J, J ≤ wb →
    wval2 wb m ((List.range J).foldl (fusedJ wb m x word i) st) =
      wval2 wb m st ^^^ (cmul (word % 2 ^ J) (wval wb x)) <<< (wb * i) ∧
    stValid wb m ((List.range J).foldl (fusedJ wb m x word i) st) := by
  intro J
  induction J with
  | zero =>
    intro _
    simp only [List.range_zero, List.foldl_nil, pow_zero, Nat.mod_one,
      cmul_zero_left, Nat.zero_shiftLeft, Nat.xor_zero]
    exact ⟨trivial, hst⟩
  | succ J ih =>
    intro hJ1
    obtain ⟨ih1, ih2⟩ := ih (by omega)
    have hfold : (List.range (J + 1)).foldl (fusedJ wb m x word i) st =
        fusedJ wb m x word i ((List.range J).foldl (fusedJ wb m x word i) st) J := by
      rw [List.range_succ, List.foldl_append, List.foldl_cons, List.foldl_nil]
    rw [hfold, fusedJ]
    by_cases hb : word &&& 1 <<< J ≠ 0
    · rw [if_pos hb]
      have hbt : word.testBit J = true := testBit_land_pow.mp hb
      obtain ⟨k1, k2⟩ := fusedK_aux x i J hxv hxl hi (by omega) _ ih2 m le_rfl
      rw [fusedInner]
      refine ⟨?_, k2⟩
      have htx : x.take m = x := by
        rw [← hxl]
        exact List.take_length x
      rw [k1, ih1, htx]
      conv_rhs => rw [mod_pow_succ word J, if_pos hbt, cmul_xor_left,
        cmul_two_pow_left, shl_xor, Nat.shiftLeft_shiftLeft]
      have e : wb * i + J = J + wb * i := by ring
      rw [e]
      simp only [Nat.xor_assoc, Nat.xor_comm, xor_left_comm]
    · rw [if_neg hb]
      have hbt : word.testBit J = false := by
        by_contra hc
        exact hb (testBit_land_pow.mpr (by simpa using hc))
      refine ⟨?_, ih2⟩
      rw [ih1, mod_pow_succ word J, hbt]
      simp only [Bool.false_eq_true, if_false, Nat.xor_zero]

/-- Accumulation invariant of the word loop of the fused-carry multiplier:
the first `I` words of the multiplier have been processed. -/
theorem fusedI_aux {wb m : Nat} (x y : List Nat) (hxv : wordsValid wb x)
    (hxl : x.length = m) (hyv : wordsValid wb y) (hyl : y.length = m)
    (st : List Nat × List Nat) (hst : stValid wb m st) :
    ∀ I, I ≤ m →
    wval2 wb m ((List.range I).foldl (fusedI wb m x y) st) =
      wval2 wb m st ^^^ cmul (wval wb (y.take I)) (wval wb x) ∧
    stValid wb m ((List.range I).foldl (fusedI wb m x y) st) := by
  intro I
  induction I with
  | zero =>
    intro _
    simp only [List.range_zero, List.foldl_nil, List.take_zero, wval_nil,
      cmul_zero_left, Nat.xor_zero]
    exact ⟨trivial, hst⟩
  | succ I ih =>
    intro hI1
    obtain ⟨ih1, ih2⟩ := ih (by omega)
    have hIm : I < m := by omega
    have hIy : I < y.length := by omega
    have hyI : y.getD I 0 < 2 ^ wb := by
      rw [List.getD_eq_get y 0 hIy]
      exact hyv _ (List.get_mem y I hIy)
    have hfold : (List.range (I + 1)).foldl (fusedI wb m x y) st =
        fusedI wb m x y ((List.range I).foldl (fusedI wb m x y) st) I := by
      rw [List.range_succ, List.foldl_append, List.foldl_cons, List.foldl_nil]
    rw [hfold, fusedI]
    obtain ⟨j1, j2⟩ := fusedJ_aux x (y.getD I 0) I hxv hxl hIm _ ih2 wb le_rfl
    refine ⟨?_, j2⟩
    rw [j1, ih1, mod_pow_eq_self hyI, wval_take_succ y I hIy, cmul_xor_left,
      cmul_shl_left]
    simp only [Nat.xor_assoc, Nat.xor_comm, xor_left_comm]

/-- Semantics of `GF2n::mul_fused_carry`: it computes the carryless product
of the two values reduced modulo the reduction polynomial. -/
theorem mul_fused_carry_spec {wb m A B C : Nat} (hA : A < wb) (hBA : B ≤ A)
    (hCB : C ≤ B) (hm1 : 1 ≤ m) (x y : List Nat) (hxv : wordsValid wb x)
    (hyv : wordsValid wb y) (hxl : x.length = m) (hyl : y.length = m) :
    wval wb (mul_fused_carry wb m A B C x y) =
      polyMod (cmul (wval wb y) (wval wb x)) (rpoly (wb * m) A B C) ∧
    (mul_fused_carry wb m A B C x y).length = m ∧
    wordsValid wb (mul_fused_carry wb m A B C x y) := by
  have hst0 : stValid wb m (List.replicate m 0, List.replicate m 0) :=
    ⟨List.length_replicate m 0, List.length_replicate m 0,
      replicate_zero_valid wb m, replicate_zero_valid wb m⟩
  obtain ⟨f1, f2⟩ := fusedI_aux x y hxv hxl hyv hyl _ hst0 m le_rfl
  have hty : y.take m = y := by
    rw [← hyl]
    exact List.take_length y
  have h0 : wval2 wb m (List.replicate m 0, List.replicate m 0) = 0 := by
    show wval wb (List.replicate m 0) ^^^ (wval wb (List.replicate m 0)) <<< (wb * m) = 0
    rw [wval_replicate_zero, Nat.zero_shiftLeft, Nat.xor_zero]
  rw [hty, h0, Nat.zero_xor] at f1
  obtain ⟨g1, g2, g3, g4⟩ := f2
  have hp := propagate_carries_spec hA hBA hCB hm1
    ((List.range m).foldl (fusedI wb m x y) (List.replicate m 0, List.replicate m 0)).1
    ((List.range m).foldl (fusedI wb m x y) (List.replicate m 0, List.replicate m 0)).2
    g3 g4 g1 g2
  show wval wb (propagate_carries wb m A B C _ _) =
      polyMod (cmul (wval wb y) (wval wb x)) (rpoly (wb * m) A B C) ∧
    (propagate_carries wb m A B C _ _).length = m ∧
    wordsValid wb (propagate_carries wb m A B C _ _)
  refine ⟨?_, hp.2.1, hp.2.2⟩
  rw [hp.1, ← f1]
  rfl

theorem cmul_shl_right (a k b : Nat) : cmul a (b <<< k) = (cmul a b) <<< k := by
  rw [cmul_comm, cmul_shl_left, cmul_comm]

/-- Accumulation invariant of the inner loop of `mul_clmul_u64`: the
products of word `i` of `x` with the first `J` words of `y` have been
accumulated. -/
theorem clmulJ_aux {wb m : Nat} (x y : List Nat) (i : Nat) (hxv : wordsValid wb x)
    (hxl : x.length = m) (hyv : wordsValid wb y) (hyl : y.length = m) (hi : i < m)
    (st : List Nat × List Nat) (hst : stValid wb m st) :
    ∀ J, J ≤ m →
    wval2 wb m ((List.range J).foldl (clmulJ wb m x y i) st) =
      wval2 wb m st ^^^ (cmul (x.getD i 0) (wval wb (y.take J))) <<< (wb * i) ∧
    stValid wb m ((List.range J).foldl (clmulJ wb m x y i) st) := by
  have hxi : x.getD i 0 < 2 ^ wb := by
    rw [List.getD_eq_get x 0 (by omega)]
    exact hxv _ (List.get_mem x i (by omega))
  intro J
  induction J with
  | zero =>
    intro _
    simp only [List.range_zero, List.foldl_nil, List.take_zero, wval_nil,
      cmul_zero_right, Nat.zero_shiftLeft, Nat.xor_zero]
    exact ⟨trivial, hst⟩
  | succ J ih =>
    intro hJ1
    obtain ⟨ih1, ih2⟩ := ih (by omega)
    have hJm : J < m := by omega
    have hJy : J < y.length := by omega
    have hyJ : y.getD J 0 < 2 ^ wb := by
      rw [List.getD_eq_get y 0 hJy]
      exact hyv _ (List.get_mem y J hJy)
    have hfold : (List.range (J + 1)).foldl (clmulJ wb m x y i) st =
        clmulJ wb m x y i ((List.range J).foldl (clmulJ wb m x y i) st) J := by
      rw [List.range_succ, List.foldl_append, List.foldl_cons, List.foldl_nil]
    rw [hfold, clmulJ]
    have hv1 : (cmul (x.getD i 0) (y.getD J 0)) % 2 ^ wb < 2 ^ wb :=
      Nat.mod_lt _ (Nat.pos_pow_of_pos _ two_pos)
    have hcb : cmul (x.getD i 0) (y.getD J 0) < 2 ^ (wb + wb) :=
      cmul_lt_pow hxi hyJ
    have hv2 : (cmul (x.getD i 0) (y.getD J 0)) >>> wb < 2 ^ wb := by
      have h := shr_lt_pow hcb wb
      have e : wb + wb - wb = wb := by omega
      rwa [e] at h
    obtain ⟨a1, a2⟩ := acc2_spec ih2 (i + J)
      ((cmul (x.getD i 0) (y.getD J 0)) % 2 ^ wb) (by omega) hv1
    obtain ⟨b1, b2⟩ := acc2_spec a2 (i + J + 1)
      ((cmul (x.getD i 0) (y.getD J 0)) >>> wb) (by omega) hv2
    refine ⟨?_, b2⟩
    have e1 : ((cmul (x.getD i 0) (y.getD J 0)) % 2 ^ wb) <<< (wb * (i + J)) ^^^
        ((cmul (x.getD i 0) (y.getD J 0)) >>> wb) <<< (wb * (i + J + 1)) =
        (cmul (x.getD i 0) (y.getD J 0)) <<< (wb * (i + J)) := by
      have e2 : wb * (i + J + 1) = wb + wb * (i + J) := by ring
      rw [e2, ← Nat.shiftLeft_shiftLeft _ wb, ← shl_xor, ← split_low_high]
    rw [b1, a1, ih1, wval_take_succ y J hJy]
    conv_rhs => rw [cmul_xor_right, cmul_shl_right, shl_xor,
      Nat.shiftLeft_shiftLeft]
    have e3 : wb * (i + J) = wb * J + wb * i := by ring
    rw [← e3, ← e1]
    simp only [Nat.xor_assoc, Nat.xor_comm, xor_left_comm]

/-- Accumulation invariant of the outer loop of `mul_clmul_u64`: the first
`I` words of `x` have been multiplied against all of `y`. -/
theorem clmulI_aux {wb m : Nat} (x y : List Nat) (hxv : wordsValid wb x)
    (hxl : x.length = m) (hyv : wordsValid wb y) (hyl : y.length = m)
    (st : List Nat × List Nat) (hst : stValid wb m st) :
    ∀ I, I ≤ m →
    wval2 wb m ((List.range I).foldl (clmulI wb m x y) st) =
      wval2 wb m st ^^^ cmul (wval wb (x.take I)) (wval wb y) ∧
    stValid wb m ((List.range I).foldl (clmulI wb m x y) st) := by
  intro I
  induction I with
  | zero =>
    intro _
    simp only [List.range_zero, List.foldl_nil, List.take_zero, wval_nil,
      cmul_zero_left, Nat.xor_zero]
    exact ⟨trivial, hst⟩
  | succ I ih =>
    intro hI1
    obtain ⟨ih1, ih2⟩ := ih (by omega)
    have hIm : I < m := by omega
    have hIx : I < x.length := by omega
    have hfold : (List.range (I + 1)).foldl (clmulI wb m x y) st =
        clmulI wb m x y ((List.range I).foldl (clmulI wb m x y) st) I := by
      rw [List.range_succ, List.foldl_append, List.foldl_cons, List.foldl_nil]
    rw [hfold, clmulI]
    obtain ⟨j1, j2⟩ := clmulJ_aux x y I hxv hxl hyv hyl hIm _ ih2 m le_rfl
    refine ⟨?_, j2⟩
    have hty : y.take m = y := by
      rw [← hyl]
      exact List.take_length y
    rw [j1, hty, ih1, wval_take_succ x I hIx, cmul_xor_left, cmul_shl_left]
    simp only [Nat.xor_assoc, Nat.xor_comm, xor_left_comm]

/-- Semantics of `mul_clmul_u64`: it computes the carryless product of the
two values reduced modulo the reduction polynomial. -/
theorem mul_clmul_spec {wb m A B C : Nat} (hA : A < wb) (hBA : B ≤ A)
    (hCB : C ≤ B) (hm1 : 1 ≤ m) (x y : List Nat) (hxv : wordsValid wb x)
    (hyv : wordsValid wb y) (hxl : x.length = m) (hyl : y.length = m) :
    wval wb (mul_clmul wb m A B C x y) =
      polyMod (cmul (wval wb y) (wval wb x)) (rpoly (wb * m) A B C) ∧
    (mul_clmul wb m A B C x y).length = m ∧
    wordsValid wb (mul_clmul wb m A B C x y) := by
  have hst0 : stValid wb m (List.replicate m 0, List.replicate m 0) :=
    ⟨List.length_replicate m 0, List.length_replicate m 0,
      replicate_zero_valid wb m, replicate_zero_valid wb m⟩
  obtain ⟨f1, f2⟩ := clmulI_aux x y hxv hxl hyv hyl _ hst0 m le_rfl
  have htx : x.take m = x := by
    rw [← hxl]
    exact List.take_length x
  have h0 : wval2 wb m (List.replicate m 0, List.replicate m 0) = 0 := by
    show wval wb (List.replicate m 0) ^^^ (wval wb (List.replicate m 0)) <<< (wb * m) = 0
    rw [wval_replicate_zero, Nat.zero_shiftLeft, Nat.xor_zero]
  rw [htx, h0, Nat.zero_xor, cmul_comm] at f1
  obtain ⟨g1, g2, g3, g4⟩ := f2
  have hp := propagate_carries_spec hA hBA hCB hm1
    ((List.range m).foldl (clmulI wb m x y) (List.replicate m 0, List.replicate m 0)).1
    ((List.range m).foldl (clmulI wb m x y) (List.replicate m 0, List.replicate m 0)).2
    g3 g4 g1 g2
  refine ⟨?_, hp.2.1, hp.2.2⟩
  show wval wb (propagate_carries wb m A B C _ _) = _
  rw [hp.1, ← f1]
  rfl

/-- C2: for every pair of field elements (word arrays of the configured
width), the shift-and-add multiplication `mul_as_add`, the fused-carry
multiplication `mul_fused_carry`, and the CLMUL path `mul_clmul_u64`
return bit-identical results. -/
theorem mul_paths_agree {wb m A B C : Nat} (hA : A < wb) (hBA : B ≤ A)
    (hCB : C ≤ B) (hm1 : 1 ≤ m) (x y : List Nat) (hxv : wordsValid wb x)
    (hyv : wordsValid wb y) (hxl : x.length = m) (hyl : y.length = m) :
    mul_fused_carry wb m A B C x y = mul_as_add wb A B C x y ∧
    mul_clmul wb m A B C x y = mul_as_add wb A B C x y := by
  obtain ⟨a1, a2, a3⟩ := mul_as_add_spec hA hBA hCB hm1 x y hxv hyv hxl hyl
  obtain ⟨f1, f2, f3⟩ := mul_fused_carry_spec hA hBA hCB hm1 x y hxv hyv hxl hyl
  obtain ⟨c1, c2, c3⟩ := mul_clmul_spec hA hBA hCB hm1 x y hxv hyv hxl hyl
  constructor
  · exact wval_inj f3 a3 (by rw [f2, a2]) (by rw [f1, a1])
  · exact wval_inj c3 a3 (by rw [c2, a2]) (by rw [c1, a1])

theorem mul_paths_agree_witness :
    mul_fused_carry 8 1 4 3 1 [3] [5] = mul_as_add 8 4 3 1 [3] [5] ∧
    mul_clmul 8 1 4 3 1 [3] [5] = mul_as_add 8 4 3 1 [3] [5] :=
  mul_paths_agree (by decide) (by decide) (by decide) (by decide) [3] [5]
    (show ∀ w ∈ ([3] : List Nat), w < 2 ^ 8 by decide)
    (show ∀ w ∈ ([5] : List Nat), w < 2 ^ 8 by decide) rfl rfl

/-- Folding the per-bit step with a zero multiplier word never touches the
result component. -/
theorem mulBitFold_zero_snd {wb A B C : Nat} :
    ∀ (l : List Nat) (st : List Nat × List Nat),
    (l.foldl (mulBitStep wb A B C 0) st).2 = st.2
  | [], _ => rfl
  | i :: l, st => by
    rw [List.foldl_cons, mulBitFold_zero_snd l]
    rw [mulBitStep]
    simp

/-- Multiplying by an all-zero word array yields the all-zero array. -/
theorem mul_as_add_zero_right {wb A B C : Nat} (x : List Nat) (k : Nat) :
    mul_as_add wb A B C x (List.replicate k 0) = List.replicate x.length 0 := by
  suffices h : ∀ (ys : List Nat) (st : List Nat × List Nat), (∀ w ∈ ys, w = 0) →
      (ys.foldl (fun st word => mulStep wb A B C word st) st).2 = st.2 by
    unfold mul_as_add
    exact h _ _ (fun w hw => List.eq_of_mem_replicate hw)
  intro ys
  induction ys with
  | nil => intro st _; rfl
  | cons w ys ih =>
    intro st hz
    have hw : w = 0 := hz w (List.mem_cons_self w ys)
    rw [List.foldl_cons, ih _ (fun u hu => hz u (List.mem_cons_of_mem w hu)), hw,
      mulStep, mulBitFold_zero_snd]

/-- C10: the square-and-multiply inversion loop maps the zero element to the
zero element in every supported field (where the bit width is at least 2),
even though inverting zero is documented as undefined. -/
theorem invert_zero {wb m A B C : Nat} (hm : 1 ≤ m) (hn : 2 ≤ wb * m) :
    invert wb m A B C (zeroE m) = zeroE m := by
  have hlen0 : (zeroE m).length = m := List.length_replicate m 0
  have hlen1 : (new_small m 1).length = m := by
    show (1 :: List.replicate (m - 1) 0).length = m
    rw [List.length_cons, List.length_replicate]
    omega
  have key : ∀ t, 1 ≤ t →
      ((List.range t).foldl
        (fun (st : List Nat × List Nat) _ =>
          let s2 := mul_as_add wb A B C st.1 st.1
          (s2, mul_as_add wb A B C st.2 s2)) (zeroE m, new_small m 1)) =
      (zeroE m, zeroE m) := by
    intro t
    induction t with
    | zero => intro h; omega
    | succ t ih =>
      intro _
      rw [List.range_succ, List.foldl_append, List.foldl_cons, List.foldl_nil]
      by_cases ht : 1 ≤ t
      · rw [ih ht]
        show (mul_as_add wb A B C (zeroE m) (zeroE m),
          mul_as_add wb A B C (zeroE m) (mul_as_add wb A B C (zeroE m) (zeroE m))) = _
        simp only [zeroE]
        rw [mul_as_add_zero_right, List.length_replicate, mul_as_add_zero_right,
          List.length_replicate]
      · have ht0 : t = 0 := by omega
        subst ht0
        show (mul_as_add wb A B C (zeroE m) (zeroE m),
          mul_as_add wb A B C (new_small m 1)
            (mul_as_add wb A B C (zeroE m) (zeroE m))) = _
        simp only [zeroE]
        rw [mul_as_add_zero_right, List.length_replicate, mul_as_add_zero_right,
          hlen1]
  unfold invert
  rw [key (wb * m - 1) (by omega)]

theorem invert_zero_witness :
    invert 8 1 4 3 1 (zeroE 1) = zeroE 1 :=
  invert_zero (by decide) (by decide)

theorem zipWith_xor_replicate_zero (k : Nat) :
    List.zipWith (fun x y => x ^^^ y) (List.replicate k 0) (List.replicate k 0) =
      List.replicate k (0 : Nat) := by
  induction k with
  | zero => rfl
  | succ k ih =>
    simp only [List.replicate_succ, List.zipWith_cons_cons, Nat.xor_self, ih]

theorem wval_new_small (wb m w : Nat) : wval wb (new_small m w) = w := by
  show wval wb (w :: List.replicate (m - 1) 0) = w
  rw [wval_cons, wval_replicate_zero, Nat.zero_shiftLeft, Nat.xor_zero]

/-- C9: `from_diff u v` equals `from(u) - from(v)` (subtraction is the
word-wise xor), and is the element whose low byte is `u xor v` with all
other bits zero. -/
theorem from_diff_ok (wb m u v : Nat) (hu : u < 2 ^ 8) (hv : v < 2 ^ 8) :
    from_diff m u v = addE (new_small m u) (new_small m v) ∧
    wval wb (from_diff m u v) = u ^^^ v ∧ u ^^^ v < 2 ^ 8 := by
  refine ⟨?_, wval_new_small wb m (u ^^^ v), Nat.xor_lt_two_pow hu hv⟩
  show new_small m (u ^^^ v) = addE (new_small m u) (new_small m v)
  show (u ^^^ v) :: List.replicate (m - 1) 0 =
    List.zipWith (fun x y => x ^^^ y) (u :: List.replicate (m - 1) 0)
      (v :: List.replicate (m - 1) 0)
  rw [List.zipWith_cons_cons, zipWith_xor_replicate_zero]

theorem from_diff_ok_witness :
    171 < 2 ^ 8 ∧ 205 < 2 ^ 8 ∧
    (from_diff 2 171 205 = addE (new_small 2 171) (new_small 2 205) ∧
     wval 8 (from_diff 2 171 205) = 171 ^^^ 205 ∧ 171 ^^^ 205 < 2 ^ 8) :=
  ⟨by decide, by decide, from_diff_ok 8 2 171 205 (by decide) (by decide)⟩

/-- C6: `from_bytes` fails exactly when the input length differs from
`NBYTES` bytes (the word-aligned byte size, which equals the ceiling of
`n/8`), and on success word `i` is the big-endian decoding of the `i`-th
consecutive word-sized chunk. -/
theorem from_bytes_ok (wbytes m : Nat) (bs : List Nat) :
    (from_bytes wbytes m bs = none ↔
      bs.length ≠ (8 * wbytes * m + 7) / 8) ∧
    (∀ ws, from_bytes wbytes m bs = some ws →
      ws.length = m ∧ ∀ i, i < m →
        ws.getD i 0 = wordFromBytes ((bs.drop (i * wbytes)).take wbytes)) := by
  have hceil : (8 * wbytes * m + 7) / 8 = m * wbytes := by
    have e : 8 * wbytes * m = 8 * (m * wbytes) := by ring
    rw [e]
    omega
  rw [hceil]
  unfold from_bytes
  by_cases h : bs.length ≠ m * wbytes
  · rw [if_pos h]
    refine ⟨⟨fun _ => h, fun _ => rfl⟩, fun ws hw => by cases hw⟩
  · rw [if_neg h]
    refine ⟨⟨fun hc => ?_, fun hc => absurd hc h⟩, fun ws hw => ?_⟩
    · cases hc
    have hws : ws = (List.range m).map
        (fun i => wordFromBytes ((bs.drop (i * wbytes)).take wbytes)) :=
      (Option.some.injEq _ _ ▸ hw).symm
    subst hws
    refine ⟨by rw [List.length_map, List.length_range], fun i hi => ?_⟩
    have hil : i < ((List.range m).map
        (fun i => wordFromBytes ((bs.drop (i * wbytes)).take wbytes))).length := by
      rw [List.length_map, List.length_range]
      exact hi
    rw [List.getD_eq_get _ 0 hil, List.get_map, List.get_range]

theorem from_bytes_ok_witness :
    from_bytes 1 2 [171, 205] = some [171, 205] ∧
    (from_bytes 1 2 [171, 205] = none ↔
      ([171, 205] : List Nat).length ≠ (8 * 1 * 2 + 7) / 8) ∧
    (([171, 205] : List Nat).length = 2 ∧ ∀ i, i < 2 →
      ([171, 205] : List Nat).getD i 0 =
        wordFromBytes ((([171, 205] : List Nat).drop (i * 1)).take 1)) :=
  ⟨by decide, (from_bytes_ok 1 2 [171, 205]).1,
    (from_bytes_ok 1 2 [171, 205]).2 [171, 205] (by decide)⟩

theorem cmul_assoc (a b c : Nat) : cmul (cmul a b) c = cmul a (cmul b c) := by
  induction a using Nat.strong_induction_on with
  | _ a ih =>
    by_cases h : a = 0
    · simp [h, cmul_zero_left]
    · rw [cmul_eq b h, cmul_eq (cmul b c) h, cmul_xor_left, cmul_shl_left,
        ih (a / 2) (Nat.div_lt_self (Nat.pos_of_ne_zero h) one_lt_two)]
      congr 1
      rcases (by omega : a % 2 = 0 ∨ a % 2 = 1) with hp | hp <;>
        simp [hp, cmul_zero_left]

/-- Reducing the right factor before a carryless multiplication does not
change the remainder of the product. -/
theorem polyMod_cmul_right {r : Nat} (hr : r ≠ 0) (a b : Nat) :
    polyMod (cmul a (polyMod b r)) r = polyMod (cmul a b) r := by
  obtain ⟨q, hq⟩ := polyMod_congr b r
  conv_rhs => rw [hq]
  have e : cmul a (cmul q r) = cmul (cmul a q) r := (cmul_assoc a q r).symm
  rw [cmul_xor_right, e, polyMod_absorb hr]

theorem mod_shr (x k t : Nat) : (x % 2 ^ (k + t)) >>> k = (x >>> k) % 2 ^ t := by
  apply Nat.eq_of_testBit_eq
  intro i
  rw [Nat.testBit_shiftRight, Nat.testBit_mod_two_pow, Nat.testBit_mod_two_pow,
    Nat.testBit_shiftRight]
  by_cases h : i < t
  · have h2 : k + i < k + t := by omega
    simp [h, h2]
  · have h2 : ¬ (k + i < k + t) := by omega
    simp [h, h2]

/-- `toWords` is a right inverse of `wval`. -/
theorem wval_toWords (wb m v : Nat) :
    wval wb (toWords wb m v) = v % 2 ^ (wb * m) := by
  induction m with
  | zero =>
    show wval wb ((List.range 0).map _) = v % 2 ^ (wb * 0)
    simp [wval_nil, Nat.mod_one]
  | succ m ih =>
    show wval wb ((List.range (m + 1)).map
      (fun i => (v >>> (wb * i)) % 2 ^ wb)) = _
    rw [List.range_succ, List.map_append, wval_append, List.length_map,
      List.length_range]
    have e0 : (List.range m).map (fun i => (v >>> (wb * i)) % 2 ^ wb) =
        toWords wb m v := rfl
    rw [e0, ih]
    show v % 2 ^ (wb * m) ^^^
      ((v >>> (wb * m)) % 2 ^ wb ^^^ wval wb [] <<< wb) <<< (wb * m) =
      v % 2 ^ (wb * (m + 1))
    rw [wval_nil, Nat.zero_shiftLeft, Nat.xor_zero]
    have e1 : wb * (m + 1) = wb * m + wb := by ring
    rw [e1]
    conv_rhs => rw [split_low_high (v % 2 ^ (wb * m + wb)) (wb * m)]
    have e2 : v % 2 ^ (wb * m + wb) % 2 ^ (wb * m) = v % 2 ^ (wb * m) :=
      Nat.mod_mod_of_dvd v (pow_dvd_pow 2 (Nat.le_add_right _ _))
    rw [e2, mod_shr v (wb * m) wb]

theorem toWords_length (wb m v : Nat) : (toWords wb m v).length = m := by
  show ((List.range m).map _).length = m
  rw [List.length_map, List.length_range]

theorem toWords_valid (wb m v : Nat) : wordsValid wb (toWords wb m v) := by
  intro w hw
  obtain ⟨i, _, rfl⟩ := List.mem_map.mp hw
  exact Nat.mod_lt _ (Nat.pos_pow_of_pos _ two_pos)

/-- Iterating the one-bit shift `shl_word(-, 1)` shifts by one bit per
application. -/
theorem shl_word_iter {wb m A B C : Nat} (hA : A < wb) (hBA : B ≤ A)
    (hCB : C ≤ B) (hm1 : 1 ≤ m) (hwb : 1 < wb) :
    ∀ (t : Nat) (x : List Nat), wordsValid wb x → x.length = m →
    wval wb ((fun ws => shl_word wb A B C ws 1)^[t] x) =
      polyMod ((wval wb x) <<< t) (rpoly (wb * m) A B C) ∧
    ((fun ws => shl_word wb A B C ws 1)^[t] x).length = m ∧
    wordsValid wb ((fun ws => shl_word wb A B C ws 1)^[t] x)
  | 0, x, hxv, hxl => by
    obtain ⟨hBwb, hCwb, ht1, ht2, hlog, hne⟩ := param_facts (m := m) hA hBA hCB hm1
    have hvx : wval wb x < 2 ^ (wb * m) := hxl ▸ wval_lt hxv
    simp only [Function.iterate_zero, id_eq, Nat.shiftLeft_zero]
    rw [polyMod_of_lt (by rw [hlog]; exact hvx)]
    exact ⟨rfl, hxl, hxv⟩
  | t + 1, x, hxv, hxl => by
    obtain ⟨hBwb, hCwb, ht1, ht2, hlog, hne⟩ := param_facts (m := m) hA hBA hCB hm1
    obtain ⟨ih1, ih2, ih3⟩ := shl_word_iter hA hBA hCB hm1 hwb t x hxv hxl
    simp only [Function.iterate_succ_apply']
    obtain ⟨s1, s2, s3⟩ := shl_word_spec hA hBA hCB hm1 hwb
      ((fun ws => shl_word wb A B C ws 1)^[t] x) ih3 ih2
    refine ⟨?_, s2, s3⟩
    rw [s1, ih1, ← polyMod_shl hne, Nat.shiftLeft_shiftLeft]

/-- Iterating `shlt` shifts by one word per application. -/
theorem shlt_iter {wb m A B C : Nat} (hA : A < wb) (hBA : B ≤ A)
    (hCB : C ≤ B) (hm1 : 1 ≤ m) :
    ∀ (t : Nat) (x : List Nat), wordsValid wb x → x.length = m →
    wval wb ((shlt wb A B C)^[t] x) =
      polyMod ((wval wb x) <<< (wb * t)) (rpoly (wb * m) A B C) ∧
    ((shlt wb A B C)^[t] x).length = m ∧
    wordsValid wb ((shlt wb A B C)^[t] x)
  | 0, x, hxv, hxl => by
    obtain ⟨hBwb, hCwb, ht1, ht2, hlog, hne⟩ := param_facts (m := m) hA hBA hCB hm1
    have hvx : wval wb x < 2 ^ (wb * m) := hxl ▸ wval_lt hxv
    simp only [Function.iterate_zero, id_eq, Nat.mul_zero, Nat.shiftLeft_zero]
    rw [polyMod_of_lt (by rw [hlog]; exact hvx)]
    exact ⟨rfl, hxl, hxv⟩
  | t + 1, x, hxv, hxl => by
    obtain ⟨hBwb, hCwb, ht1, ht2, hlog, hne⟩ := param_facts (m := m) hA hBA hCB hm1
    obtain ⟨ih1, ih2, ih3⟩ := shlt_iter hA hBA hCB hm1 t x hxv hxl
    simp only [Function.iterate_succ_apply']
    obtain ⟨s1, s2, s3⟩ := shlt_spec hA hBA hCB hm1 ((shlt wb A B C)^[t] x) ih3 ih2
    refine ⟨?_, s2, s3⟩
    rw [s1, ih1, ← polyMod_shl hne, Nat.shiftLeft_shiftLeft]
    have e : wb * t + wb = wb * (t + 1) := by ring
    rw [e]

/-- C8 (amended): `shl1` coincides with `shl_word(-, 1)`; `shl_word(-, 1)`
applied `b` times (not `b - 1`) equals `shlt`; and `t` successive
applications of `shlt` equal multiplication by the field element
`x^(b*t)` (with `b = wb` the word width in bits). -/
theorem shift_consistency {wb m A B C : Nat} (hA : A < wb) (hBA : B ≤ A)
    (hCB : C ≤ B) (hm1 : 1 ≤ m) (hwb : 1 < wb) (x : List Nat)
    (hxv : wordsValid wb x) (hxl : x.length = m) :
    shl1 wb A B C x = shl_word wb A B C x 1 ∧
    (fun ws => shl_word wb A B C ws 1)^[wb] x = shlt wb A B C x ∧
    ∀ t, (shlt wb A B C)^[t] x = mul_as_add wb A B C x
      (toWords wb m (polyMod (1 <<< (wb * t)) (rpoly (wb * m) A B C))) := by
  obtain ⟨hBwb, hCwb, ht1, ht2, hlog, hne⟩ := param_facts (m := m) hA hBA hCB hm1
  obtain ⟨a1, a2, a3⟩ := shl1_spec hA hBA hCB hm1 x hxv hxl
  obtain ⟨b1, b2, b3⟩ := shl_word_spec hA hBA hCB hm1 hwb x hxv hxl
  obtain ⟨c1, c2, c3⟩ := shl_word_iter hA hBA hCB hm1 hwb wb x hxv hxl
  obtain ⟨d1, d2, d3⟩ := shlt_spec hA hBA hCB hm1 x hxv hxl
  refine ⟨wval_inj a3 b3 (by rw [a2, b2]) (by rw [a1, b1]),
    wval_inj c3 d3 (by rw [c2, d2]) (by rw [c1, d1]), fun t => ?_⟩
  obtain ⟨e1, e2, e3⟩ := shlt_iter hA hBA hCB hm1 t x hxv hxl
  obtain ⟨f1, f2, f3⟩ := mul_as_add_spec hA hBA hCB hm1 x
    (toWords wb m (polyMod (1 <<< (wb * t)) (rpoly (wb * m) A B C)))
    hxv (toWords_valid _ _ _) hxl (toWords_length _ _ _)
  refine wval_inj e3 f3 (by rw [e2, f2]) ?_
  have hlt : polyMod (1 <<< (wb * t)) (rpoly (wb * m) A B C) < 2 ^ (wb * m) := by
    have h := polyMod_lt (1 <<< (wb * t)) (rpoly (wb * m) A B C) hne
    rwa [hlog] at h
  rw [e1, f1, wval_toWords, mod_pow_eq_self hlt, cmul_comm,
    polyMod_cmul_right hne, cmul_pow_shl_right]

theorem shift_consistency_witness :
    (4 < 8 ∧ (3 : Nat) ≤ 4 ∧ (1 : Nat) ≤ 3 ∧ (1 : Nat) ≤ 1 ∧ 1 < 8 ∧
      (∀ w ∈ ([1] : List Nat), w < 2 ^ 8) ∧ ([1] : List Nat).length = 1) ∧
    (shl1 8 4 3 1 [1] = shl_word 8 4 3 1 [1] 1 ∧
     (fun ws => shl_word 8 4 3 1 ws 1)^[8] [1] = shlt 8 4 3 1 [1] ∧
     ∀ t, (shlt 8 4 3 1)^[t] [1] = mul_as_add 8 4 3 1 [1]
       (toWords 8 1 (polyMod (1 <<< (8 * t)) (rpoly (8 * 1) 4 3 1)))) :=
  ⟨⟨by decide, by decide, by decide, by decide, by decide, by decide, by decide⟩,
   shift_consistency (by decide) (by decide) (by decide) (by decide) (by decide)
     [1] (show ∀ w ∈ ([1] : List Nat), w < 2 ^ 8 by decide) rfl⟩

/-- C8 (counterexample): in GF(2^8), applying `shl_word(-, 1)` exactly
`b - 1 = 7` times to the element `1` yields `x^7`, which differs from
`shlt(1) = x^8 mod p`; so "`shl_word` applied `b - 1` times equals `shlt`"
is off by one. -/
theorem shl_word_iter_off_by_one :
    (fun ws => shl_word 8 4 3 1 ws 1)^[8 - 1] [1] ≠ shlt 8 4 3 1 [1] := by
  intro heq
  obtain ⟨hBwb, hCwb, ht1, ht2, hlog, hne⟩ :=
    param_facts (m := 1) (A := 4) (B := 3) (C := 1)
      (show (4 : Nat) < 8 by norm_num) (by norm_num) (by norm_num) (by norm_num)
  have hxv : wordsValid 8 [1] := by
    intro w hw
    simp only [List.mem_singleton] at hw
    omega
  have h1 := (shl_word_iter (m := 1) (A := 4) (B := 3) (C := 1)
    (show (4 : Nat) < 8 by norm_num) (by norm_num) (by norm_num) (by norm_num)
    (by norm_num) 7 [1] hxv rfl).1
  have h2 := (shlt_spec (m := 1) (A := 4) (B := 3) (C := 1)
    (show (4 : Nat) < 8 by norm_num) (by norm_num) (by norm_num) (by norm_num)
    [1] hxv rfl).1
  have hw1 : wval 8 [1] = 1 := by decide
  have hpm1 : polyMod ((1 : Nat) <<< 7) (rpoly (8 * 1) 4 3 1) = 128 := by
    rw [polyMod_of_lt]
    · decide
    · rw [hlog]
      decide
  have hpm2 : polyMod ((1 : Nat) <<< 8) (rpoly (8 * 1) 4 3 1) = 27 := by
    refine polyMod_unique hne (q := 1) ?_ ?_
    · rw [hlog]
      decide
    · rw [cmul_one_left]
      decide
  have he7 : (8 : Nat) - 1 = 7 := rfl
  rw [he7] at heq
  have hval := congrArg (wval 8) heq
  rw [h1, h2, hw1, hpm1, hpm2] at hval
  exact absurd hval (by decide)

/-- The square-and-multiply loop of `GF2n::invert` (gf2n.rs lines 542-550)
over an arbitrary field carrier: `NBITS - 1` iterations of "square `self`,
multiply `result` by it", starting from `result = ONE`. -/
def invertF {F : Type} [Field F] (nbits : Nat) (v : F) : F :=
  ((List.range (nbits - 1)).foldl (fun (st : F × F) _ =>
    let s2 := st.1 * st.1
    (s2, st.2 * s2)) (v, 1)).2

/-- C3: for every nonzero element of a field of order `2^nbits`, the
inversion loop returns the multiplicative inverse: `x * invert x = 1`. -/
theorem invert_mul_self {F : Type} [Field F] [Fintype F] (nbits : Nat)
    (hcard : Fintype.card F = 2 ^ nbits) (x : F) (hx : x ≠ 0) :
    x * invertF nbits x = 1 := by
  have key : ∀ t, (List.range t).foldl (fun (st : F × F) _ =>
      let s2 := st.1 * st.1
      (s2, st.2 * s2)) (x, 1) = (x ^ (2 ^ t), x ^ (2 ^ (t + 1) - 2)) := by
    intro t
    induction t with
    | zero =>
      show (x, (1 : F)) = (x ^ (2 ^ 0), x ^ (2 ^ 1 - 2))
      norm_num
    | succ t ih =>
      rw [List.range_succ, List.foldl_append, List.foldl_cons, List.foldl_nil, ih]
      show (x ^ 2 ^ t * x ^ 2 ^ t, x ^ (2 ^ (t + 1) - 2) * (x ^ 2 ^ t * x ^ 2 ^ t)) = _
      rw [← pow_add, ← pow_add]
      have h1 : 2 ^ t + 2 ^ t = 2 ^ (t + 1) := by
        have := Nat.one_le_two_pow (n := t)
        omega
      have h2 : 2 ^ (t + 1) - 2 + 2 ^ (t + 1) = 2 ^ (t + 1 + 1) - 2 := by
        have ha := Nat.one_le_two_pow (n := t + 1)
        have hb : 2 ^ (t + 1 + 1) = 2 * 2 ^ (t + 1) := by
          rw [Nat.pow_succ]
          ring
        omega
      rw [h1, h2]
  have hn1 : 1 ≤ nbits := by
    by_contra hn
    have h0 : nbits = 0 := by omega
    have hlt := Fintype.one_lt_card (α := F)
    rw [hcard, h0] at hlt
    omega
  have hres : invertF nbits x = x ^ (2 ^ nbits - 2) := by
    show ((List.range (nbits - 1)).foldl _ (x, 1)).2 = _
    rw [key (nbits - 1)]
    have e : nbits - 1 + 1 = nbits := by omega
    rw [e]
  rw [hres, ← pow_succ']
  have h3 : 2 ^ nbits - 2 + 1 = 2 ^ nbits - 1 := by
    have := Nat.one_lt_two_pow_iff.mpr (by omega : nbits ≠ 0)
    omega
  have h4 : x ^ (2 ^ nbits - 2 + 1) = x ^ (Fintype.card F - 1) := by
    rw [h3, hcard]
  rw [h4]
  exact FiniteField.pow_card_sub_one_eq_one x hx

theorem invert_mul_self_witness :
    Fintype.card (ZMod 2) = 2 ^ 1 ∧ (1 : ZMod 2) ≠ 0 ∧
    (1 : ZMod 2) * invertF 1 1 = 1 :=
  ⟨by decide, by decide, invert_mul_self 1 (by decide) 1 (by decide)⟩

/-- `generate_polynom` (shamir.rs lines 99-110): the `k - 1` random
higher-degree coefficients, drawn from a stream of uniform samples. -/
def generate_polynom {F : Type} (draws : List F) (k : Nat) : List F :=
  draws.take (k - 1)

/-- The share-evaluation loop of `split` (shamir.rs lines 129-134): running
value `y` and running power `xn`, one step per polynomial coefficient. -/
def polyEval {F : Type} [Field F] (secret : F) (polynom : List F) (x : F) : F :=
  (polynom.foldl (fun (st : F × F) p => (st.1 + st.2 * p, st.2 * x))
    (secret, x)).1

/-- `CompactShamir::split` (shamir.rs lines 120-140): share `i` (for `i`
from 1 to `n`) has x-coordinate `i` and y-coordinate the polynomial
evaluated at `from(i)`. -/
def cSplit {F : Type} [Field F] (fb : Nat → F) (secret : F) (polynom : List F)
    (n : Nat) : List (Nat × F) :=
  (List.range n).map (fun idx => (idx + 1, polyEval secret polynom (fb (idx + 1))))

/-- C4: with threshold `k = 1` the generated polynomial is empty and every
share's y-coordinate equals the secret. -/
theorem split_threshold_one {F : Type} [Field F] (fb : Nat → F) (secret : F)
    (draws : List F) (n : Nat) :
    cSplit fb secret (generate_polynom draws 1) n =
      (List.range n).map (fun i => (i + 1, secret)) := by
  show cSplit fb secret (draws.take (1 - 1)) n = _
  rw [List.take_zero]
  rfl

/-- The rejection-sampling loop of `RandomShamir::split` (shamir.rs lines
223-234): pull draws from the stream until one is neither zero nor equal to
a previously chosen x-coordinate; return it and the rest of the stream. -/
def drawX {F : Type} [Field F] [DecidableEq F] (prev : List F) :
    List F → Option (F × List F)
  | [] => none
  | d :: rest => if d = 0 ∨ d ∈ prev then drawX prev rest else some (d, rest)

/-- The share loop of `RandomShamir::split` (shamir.rs lines 222-244),
counting down the remaining shares. -/
def rSplitGo {F : Type} [Field F] [DecidableEq F] (secret : F)
    (polynom : List F) :
    Nat → List F → List (F × F) → Option (List (F × F))
  | 0, _, shares => some shares
  | c + 1, stream, shares =>
    match drawX (shares.map Prod.fst) stream with
    | none => none
    | some (x, rest) =>
      rSplitGo secret polynom c rest (shares ++ [(x, polyEval secret polynom x)])

/-- `RandomShamir::split` (shamir.rs lines 215-247) over an explicit stream
of uniform draws; `none` models a stream too short for the retry loops. -/
def rSplit {F : Type} [Field F] [DecidableEq F] (secret : F) (polynom : List F)
    (n : Nat) (stream : List F) : Option (List (F × F)) :=
  rSplitGo secret polynom n stream []

theorem drawX_spec {F : Type} [Field F] [DecidableEq F] (prev : List F) :
    ∀ (stream : List F) (x : F) (rest : List F),
    drawX prev stream = some (x, rest) → x ≠ 0 ∧ x ∉ prev
  | [], x, rest, h => by cases h
  | d :: s, x, rest, h => by
    rw [drawX] at h
    by_cases hc : d = 0 ∨ d ∈ prev
    · rw [if_pos hc] at h
      exact drawX_spec prev s x rest h
    · rw [if_neg hc] at h
      rw [Option.some.injEq, Prod.mk.injEq] at h
      obtain ⟨h1, _⟩ := h
      subst h1
      push_neg at hc
      exact hc

theorem rSplitGo_spec {F : Type} [Field F] [DecidableEq F] (secret : F)
    (polynom : List F) :
    ∀ (c : Nat) (stream : List F) (acc out : List (F × F)),
    rSplitGo secret polynom c stream acc = some out →
    (acc.map Prod.fst).Nodup → (∀ x ∈ acc.map Prod.fst, x ≠ 0) →
    (out.map Prod.fst).Nodup ∧ (∀ x ∈ out.map Prod.fst, x ≠ 0) ∧
    out.length = acc.length + c
  | 0, stream, acc, out, h, hnd, hnz => by
    rw [rSplitGo, Option.some.injEq] at h
    subst h
    exact ⟨hnd, hnz, rfl⟩
  | c + 1, stream, acc, out, h, hnd, hnz => by
    rw [rSplitGo] at h
    cases hd : drawX (acc.map Prod.fst) stream with
    | none => rw [hd] at h; cases h
    | some p =>
      obtain ⟨x, rest⟩ := p
      rw [hd] at h
      obtain ⟨hx0, hxp⟩ := drawX_spec _ stream x rest hd
      have hnd2 : ((acc ++ [(x, polyEval secret polynom x)]).map Prod.fst).Nodup := by
        rw [List.map_append, List.nodup_append]
        refine ⟨hnd, List.nodup_singleton _, ?_⟩
        intro a ha hb
        simp only [List.map_cons, List.map_nil, List.mem_singleton] at hb
        subst hb
        exact hxp ha
      have hnz2 : ∀ z ∈ (acc ++ [(x, polyEval secret polynom x)]).map Prod.fst,
          z ≠ 0 := by
        intro z hz
        rw [List.map_append, List.mem_append] at hz
        rcases hz with hz | hz
        · exact hnz z hz
        · simp only [List.map_cons, List.map_nil, List.mem_singleton] at hz
          subst hz
          exact hx0
      obtain ⟨g1, g2, g3⟩ := rSplitGo_spec secret polynom c rest _ out h hnd2 hnz2
      refine ⟨g1, g2, ?_⟩
      rw [g3, List.length_append]
      simp only [List.length_singleton]
      omega

/-- C5: every batch of shares returned by the random split has all `n`
x-coordinates nonzero and pairwise distinct. -/
theorem rSplit_x_nonzero_distinct {F : Type} [Field F] [DecidableEq F]
    (secret : F) (polynom : List F) (n : Nat) (stream : List F)
    (shares : List (F × F)) (h : rSplit secret polynom n stream = some shares) :
    (shares.map Prod.fst).Nodup ∧ (∀ x ∈ shares.map Prod.fst, x ≠ 0) ∧
    shares.length = n := by
  obtain ⟨h1, h2, h3⟩ := rSplitGo_spec secret polynom n stream [] shares h
    (by simp) (by simp)
  exact ⟨h1, h2, by simpa using h3⟩

theorem rSplit_x_nonzero_distinct_witness :
    rSplit (0 : ZMod 2) [] 1 [0, 1] = some [(1, 0)] ∧
    ((([((1 : ZMod 2), (0 : ZMod 2))]).map Prod.fst).Nodup ∧
     (∀ x ∈ ([((1 : ZMod 2), (0 : ZMod 2))]).map Prod.fst, x ≠ 0) ∧
     ([((1 : ZMod 2), (0 : ZMod 2))]).length = 1) :=
  ⟨by decide, rSplit_x_nonzero_distinct 0 [] 1 [0, 1] [(1, 0)] (by decide)⟩

/-- The character class `[0-9]` of the share regex. -/
def isDigit (c : Char) : Bool := 48 ≤ c.toNat && c.toNat ≤ 57

/-- The character class `[0-9a-fA-F]` of the share regex. -/
def isHex (c : Char) : Bool :=
  (48 ≤ c.toNat && c.toNat ≤ 57) || (97 ≤ c.toNat && c.toNat ≤ 102) ||
    (65 ≤ c.toNat && c.toNat ≤ 70)

def digVal (c : Char) : Nat := c.toNat - 48

def hexVal (c : Char) : Nat :=
  if 48 ≤ c.toNat && c.toNat ≤ 57 then c.toNat - 48
  else if 97 ≤ c.toNat then c.toNat - 87
  else c.toNat - 55

/-- Decimal value of a digit string, as computed by `str::parse`. -/
def decVal (xs : List Char) : Nat := xs.foldl (fun a c => a * 10 + digVal c) 0

/-- `hex::decode`: pairs of hex characters to bytes; fails on an odd-length
or non-hex input. -/
def hexDecode : List Char → Option (List Nat)
  | [] => some []
  | [_] => none
  | c1 :: c2 :: rest =>
    if isHex c1 && isHex c2 then
      match hexDecode rest with
      | none => none
      | some bs => some ((16 * hexVal c1 + hexVal c2) :: bs)
    else none

/-- `CompactShamir::parse_share` (shamir.rs lines 196-204): match the
anchored regex `([0-9]+)[|]([0-9a-fA-F]+)` (the x capture is everything
before the first bar, the y capture everything after it), parse the x
capture as a `u8` (any value up to 255), hex-decode the y capture, and
parse the bytes as a field element. -/
def parse_share (wbytes m : Nat) (s : List Char) : Option (Nat × List Nat) :=
  let xs := s.takeWhile (fun c => c != '|')
  let rest := s.dropWhile (fun c => c != '|')
  if xs = [] ∨ xs.all isDigit = false ∨ rest = [] ∨ rest.drop 1 = [] ∨
      (rest.drop 1).all isHex = false then none
  else if 255 < decVal xs then none
  else
    match hexDecode (rest.drop 1) with
    | none => none
    | some bs =>
      match from_bytes wbytes m bs with
      | none => none
      | some ws => some (decVal xs, ws)

theorem dropWhile_head_false {p : Char → Bool} :
    ∀ (s : List Char) (c : Char) (cs : List Char),
    s.dropWhile p = c :: cs → p c = false
  | [], c, cs, h => by cases h
  | d :: s, c, cs, h => by
    rw [List.dropWhile_cons] at h
    by_cases hd : p d
    · rw [if_pos hd] at h
      exact dropWhile_head_false s c cs h
    · rw [if_neg hd] at h
      rw [List.cons.injEq] at h
      obtain ⟨h1, _⟩ := h
      subst h1
      simpa using hd

theorem takeWhile_append_cons {p : Char → Bool} :
    ∀ (xs : List Char) (c : Char) (ys : List Char),
    (∀ a ∈ xs, p a = true) → p c = false →
    (xs ++ c :: ys).takeWhile p = xs ∧ (xs ++ c :: ys).dropWhile p = c :: ys
  | [], c, ys, _, hc => by
    constructor
    · show (c :: ys).takeWhile p = []
      rw [List.takeWhile_cons, hc]
      simp
    · show (c :: ys).dropWhile p = c :: ys
      rw [List.dropWhile_cons, hc]
      simp
  | a :: xs, c, ys, hall, hc => by
    have ha : p a = true := hall a (List.mem_cons_self a xs)
    obtain ⟨ih1, ih2⟩ := takeWhile_append_cons xs c ys
      (fun b hb => hall b (List.mem_cons_of_mem a hb)) hc
    constructor
    · show ((a :: (xs ++ c :: ys)).takeWhile p) = a :: xs
      rw [List.takeWhile_cons, ha]
      simp [ih1]
    · show ((a :: (xs ++ c :: ys)).dropWhile p) = c :: ys
      rw [List.dropWhile_cons, ha]
      simpa using ih2

theorem hexDecode_some_length :
    ∀ (ys : List Char) (bs : List Nat), hexDecode ys = some bs →
    ys.length = 2 * bs.length
  | [], bs, h => by
    rw [hexDecode, Option.some.injEq] at h
    subst h
    rfl
  | [c], bs, h => by
    rw [hexDecode] at h
    cases h
  | c1 :: c2 :: rest, bs, h => by
    rw [hexDecode] at h
    by_cases hv : isHex c1 && isHex c2
    · rw [if_pos hv] at h
      cases hrec : hexDecode rest with
      | none => rw [hrec] at h; cases h
      | some bs2 =>
        rw [hrec, Option.some.injEq] at h
        subst h
        have hlen := hexDecode_some_length rest bs2 hrec
        simp only [List.length_cons]
        omega
    · rw [if_neg hv] at h
      cases h

theorem hexDecode_total :
    ∀ (t : Nat) (ys : List Char), ys.all isHex = true → ys.length = 2 * t →
    ∃ bs, hexDecode ys = some bs ∧ bs.length = t
  | 0, ys, _, hlen => by
    have hnil : ys = [] := List.length_eq_zero.mp (by omega)
    subst hnil
    exact ⟨[], rfl, rfl⟩
  | t + 1, ys, hhex, hlen => by
    cases ys with
    | nil =>
      simp only [List.length_nil] at hlen
      omega
    | cons c1 ys2 =>
      cases ys2 with
      | nil =>
        simp only [List.length_cons, List.length_nil] at hlen
        omega
      | cons c2 rest =>
        have h1 : isHex c1 = true :=
          List.all_eq_true.mp hhex c1 (List.mem_cons_self _ _)
        have h2 : isHex c2 = true :=
          List.all_eq_true.mp hhex c2
            (List.mem_cons_of_mem _ (List.mem_cons_self _ _))
        have h3 : rest.all isHex = true := by
          rw [List.all_eq_true]
          intro a ha
          exact List.all_eq_true.mp hhex a
            (List.mem_cons_of_mem _ (List.mem_cons_of_mem _ ha))
        have h4 : rest.length = 2 * t := by
          simp only [List.length_cons] at hlen
          omega
        obtain ⟨bs, hbs, hbl⟩ := hexDecode_total t rest h3 h4
        refine ⟨(16 * hexVal c1 + hexVal c2) :: bs, ?_, by simp [hbl]⟩
        rw [hexDecode, if_pos (by rw [h1, h2]; rfl), hbs]

/-- C7 (amended): `parse_share` succeeds exactly on lines consisting of a
nonempty decimal string with value at most 255 (zero included), a bar, and
exactly `2 * NBYTES` hex characters. -/
theorem parse_share_grammar (wbytes m : Nat) (hw : 1 ≤ wbytes) (hm : 1 ≤ m)
    (s : List Char) :
    (parse_share wbytes m s).isSome = true ↔
    ∃ xs ys, s = xs ++ '|' :: ys ∧ xs ≠ [] ∧ xs.all isDigit = true ∧
      ys.all isHex = true ∧ decVal xs ≤ 255 ∧ ys.length = 2 * (m * wbytes) := by
  simp only [parse_share]
  constructor
  · intro h
    by_cases hgate : s.takeWhile (fun c => c != '|') = [] ∨
        (s.takeWhile (fun c => c != '|')).all isDigit = false ∨
        s.dropWhile (fun c => c != '|') = [] ∨
        (s.dropWhile (fun c => c != '|')).drop 1 = [] ∨
        ((s.dropWhile (fun c => c != '|')).drop 1).all isHex = false
    · rw [if_pos hgate] at h
      simp at h
    · rw [if_neg hgate] at h
      push_neg at hgate
      obtain ⟨hne, hdig, hrne, hdne, hhex⟩ := hgate
      by_cases h255 : 255 < decVal (s.takeWhile (fun c => c != '|'))
      · rw [if_pos h255] at h
        simp at h
      · rw [if_neg h255] at h
        cases hhd : hexDecode ((s.dropWhile (fun c => c != '|')).drop 1) with
        | none =>
          rw [hhd] at h
          simp at h
        | some bs =>
          rw [hhd] at h
          cases hfb : from_bytes wbytes m bs with
          | none =>
            simp [hfb] at h
          | some ws =>
            obtain ⟨r0, rtail, hrest⟩ : ∃ r0 rtail,
                s.dropWhile (fun c => c != '|') = r0 :: rtail := by
              cases hre : s.dropWhile (fun c => c != '|') with
              | nil => exact absurd hre hrne
              | cons r0 rtail => exact ⟨r0, rtail, rfl⟩
            have hr0 : (r0 != '|') = false := dropWhile_head_false s r0 rtail hrest
            have hr0e : r0 = '|' := by
              have := bne_eq_false_iff_eq.mp hr0
              exact this
            subst hr0e
            have hsplit : s = s.takeWhile (fun c => c != '|') ++ '|' :: rtail := by
              conv_lhs => rw [← List.takeWhile_append_dropWhile
                (p := fun c => c != '|') (l := s)]
              rw [hrest]
            have hdrop : (s.dropWhile (fun c => c != '|')).drop 1 = rtail := by
              rw [hrest]
              rfl
            have hlen := hexDecode_some_length _ bs hhd
            have hbl : bs.length = m * wbytes := by
              by_cases hb : bs.length ≠ m * wbytes
              · rw [from_bytes, if_pos hb] at hfb
                cases hfb
              · omega
            refine ⟨s.takeWhile (fun c => c != '|'), rtail, hsplit, hne, ?_, ?_,
              by omega, ?_⟩
            · cases hb : (s.takeWhile (fun c => c != '|')).all isDigit with
              | false => exact absurd hb hdig
              | true => rfl
            · rw [← hdrop]
              cases hb : ((s.dropWhile (fun c => c != '|')).drop 1).all isHex with
              | false => exact absurd hb hhex
              | true => rfl
            · rw [← hdrop, hlen, hbl]
  · intro hex
    obtain ⟨xs, ys, hsplit, hne, hdig, hhex, hdec, hlen⟩ := hex
    subst hsplit
    have hall : ∀ a ∈ xs, (a != '|') = true := by
      intro a ha
      have hd := List.all_eq_true.mp hdig a ha
      rw [bne_iff_ne]
      intro hce
      subst hce
      rw [isDigit] at hd
      simp at hd
    obtain ⟨ht, hd⟩ := takeWhile_append_cons xs '|' ys hall (by simp)
    rw [ht, hd]
    have hys : ys ≠ [] := by
      intro hy
      subst hy
      have hmul : 1 * 1 ≤ m * wbytes := Nat.mul_le_mul hm hw
      simp only [List.length_nil] at hlen
      omega
    have hgate : ¬ (xs = [] ∨ xs.all isDigit = false ∨ ('|' :: ys) = [] ∨
        ('|' :: ys).drop 1 = [] ∨ (('|' :: ys).drop 1).all isHex = false) := by
      push_neg
      refine ⟨hne, by rw [hdig]; simp, by simp, ?_, ?_⟩
      · show ys ≠ []
        exact hys
      · show ys.all isHex ≠ false
        rw [hhex]
        simp
    rw [if_neg hgate, if_neg (by omega : ¬ 255 < decVal xs)]
    obtain ⟨bs, hbs, hbl⟩ := hexDecode_total (m * wbytes) ys hhex hlen
    have hdrop : ('|' :: ys).drop 1 = ys := rfl
    rw [hdrop, hbs]
    have hfb : from_bytes wbytes m bs =
        some ((List.range m).map
          (fun i => wordFromBytes ((bs.drop (i * wbytes)).take wbytes))) := by
      rw [from_bytes, if_neg (by omega)]
    show (match from_bytes wbytes m bs with
      | none => none
      | some ws => some (decVal xs, ws)).isSome = true
    rw [hfb]
    rfl

theorem parse_share_grammar_witness :
    ((1 : Nat) ≤ 1 ∧ (1 : Nat) ≤ 1) ∧
    ((parse_share 1 1 ['7', '|', 'a', 'b']).isSome = true ↔
     ∃ xs ys, ['7', '|', 'a', 'b'] = xs ++ '|' :: ys ∧ xs ≠ [] ∧
       xs.all isDigit = true ∧ ys.all isHex = true ∧ decVal xs ≤ 255 ∧
       ys.length = 2 * (1 * 1)) :=
  ⟨⟨le_refl 1, le_refl 1⟩,
   parse_share_grammar 1 1 (le_refl 1) (le_refl 1) ['7', '|', 'a', 'b']⟩

/-- C7 (counterexample): the parser accepts the line `0|ec`, whose x half
is the decimal number 0, outside the range `1..=255` required by the
claimed grammar; `parse::<u8>` enforces no lower bound beyond the regex. -/
theorem parse_share_accepts_x_zero :
    parse_share 1 1 ['0', '|', 'e', 'c'] = some (0, [236]) ∧ ¬ (1 : Nat) ≤ 0 := by
  constructor
  · rfl
  · omega

/-- The Lagrange accumulation of `CompactShamir::reconstruct` (shamir.rs
lines 148-158) for one share index `i`: the running numerator (product of
the other x-coordinates, as field elements) and denominator (product of the
differences to share `i`). -/
def lagrangeStep {F : Type} [Field F] (fd : Nat → Nat → F) (gfx : List F)
    (top : List (Nat × F)) (i : Nat) : F × F :=
  (List.range top.length).foldl (fun (ld : F × F) j =>
    if j ≠ i then
      (ld.1 * gfx.getD j 0, ld.2 * fd (top.getD j (0, 0)).1 (top.getD i (0, 0)).1)
    else ld) (1, 1)

/-- `CompactShamir::reconstruct` (shamir.rs lines 142-165): Lagrange
interpolation at zero over the first `k` supplied shares. -/
def cReconstruct {F : Type} [Field F] (inv : F → F) (fd : Nat → Nat → F)
    (fb : Nat → F) (shares : List (Nat × F)) (k : Nat) : F :=
  let top := shares.take k
  let gfx := shares.map (fun sh => fb sh.1)
  (List.range top.length).foldl (fun secret i =>
    secret + (lagrangeStep fd gfx top i).1 * (top.getD i (0, 0)).2 *
      inv (lagrangeStep fd gfx top i).2) 0

theorem polyEval_aux {F : Type} [Field F] (x : F) :
    ∀ (ps : List F) (y xn : F),
    (ps.foldl (fun (st : F × F) p => (st.1 + st.2 * p, st.2 * x)) (y, xn)).1 =
      y + xn * (ps.foldr (fun p acc => Polynomial.C p + Polynomial.X * acc)
        (0 : Polynomial F)).eval x
  | [], y, xn => by
    simp
  | p :: ps, y, xn => by
    rw [List.foldl_cons]
    show ((ps.foldl (fun (st : F × F) p => (st.1 + st.2 * p, st.2 * x))
      (y + xn * p, xn * x))).1 = _
    rw [polyEval_aux x ps (y + xn * p) (xn * x), List.foldr_cons]
    simp only [Polynomial.eval_add, Polynomial.eval_C,
      Polynomial.eval_mul, Polynomial.eval_X]
    ring

/-- The share-evaluation loop computes the evaluation of the polynomial
with constant term `secret` and higher coefficients `polynom`. -/
theorem polyEval_eq {F : Type} [Field F] (secret : F) (polynom : List F)
    (x : F) : polyEval secret polynom x =
      (Polynomial.C secret + Polynomial.X *
        polynom.foldr (fun p acc => Polynomial.C p + Polynomial.X * acc)
          (0 : Polynomial F)).eval x := by
  unfold polyEval
  rw [polyEval_aux x polynom secret x]
  simp [Polynomial.eval_add, Polynomial.eval_mul]

theorem polyOf_eval_zero {F : Type} [Field F] (secret : F) (polynom : List F) :
    (Polynomial.C secret + Polynomial.X *
      polynom.foldr (fun p acc => Polynomial.C p + Polynomial.X * acc)
        (0 : Polynomial F)).eval 0 = secret := by
  simp

theorem polyGo_coeff_zero {F : Type} [Field F] :
    ∀ (ps : List F) (t : Nat), ps.length ≤ t →
    (ps.foldr (fun p acc => Polynomial.C p + Polynomial.X * acc)
      (0 : Polynomial F)).coeff t = 0
  | [], t, _ => by simp
  | p :: ps, t, ht => by
    have ht1 : 1 ≤ t := by
      simp only [List.length_cons] at ht
      omega
    obtain ⟨u, rfl⟩ : ∃ u, t = u + 1 := ⟨t - 1, by omega⟩
    rw [List.foldr_cons]
    simp only [Polynomial.coeff_add, Polynomial.coeff_X_mul]
    rw [Polynomial.coeff_C, if_neg (by omega),
      polyGo_coeff_zero ps u (by simp only [List.length_cons] at ht; omega)]
    simp

theorem polyOf_degree_lt {F : Type} [Field F] (secret : F) (polynom : List F)
    (k : Nat) (hk : polynom.length < k) :
    (Polynomial.C secret + Polynomial.X *
      polynom.foldr (fun p acc => Polynomial.C p + Polynomial.X * acc)
        (0 : Polynomial F)).degree < (k : WithBot Nat) := by
  rw [Polynomial.degree_lt_iff_coeff_zero]
  intro t ht
  have ht1 : 1 ≤ t := by omega
  obtain ⟨u, rfl⟩ : ∃ u, t = u + 1 := ⟨t - 1, by omega⟩
  simp only [Polynomial.coeff_add, Polynomial.coeff_X_mul]
  rw [Polynomial.coeff_C, if_neg (by omega),
    polyGo_coeff_zero polynom u (by omega)]
  simp

theorem foldl_add_sum {F : Type} [Field F] (g : Nat → F) :
    ∀ N, (List.range N).foldl (fun acc i => acc + g i) 0 =
      ∑ i in Finset.range N, g i
  | 0 => by simp
  | N + 1 => by
    simp only [List.range_succ, List.foldl_append, List.foldl_cons,
      List.foldl_nil, foldl_add_sum g N, Finset.sum_range_succ]

theorem foldl_pair_ite_prod {F : Type} [Field F] (a b : Nat → F) (i : Nat) :
    ∀ N, (List.range N).foldl (fun (ld : F × F) j =>
      if j ≠ i then (ld.1 * a j, ld.2 * b j) else ld) (1, 1) =
    (∏ j in Finset.range N, if j ≠ i then a j else 1,
     ∏ j in Finset.range N, if j ≠ i then b j else 1)
  | 0 => by simp
  | N + 1 => by
    simp only [List.range_succ, List.foldl_append, List.foldl_cons,
      List.foldl_nil, foldl_pair_ite_prod a b i N, Finset.prod_range_succ]
    by_cases hN : N ≠ i
    · simp only [if_pos hN]
    · simp only [if_neg hN, mul_one]

theorem prod_ite_ne_erase {F : Type} [Field F] (k i : Nat)
    (hi : i ∈ Finset.range k) (f : Nat → F) :
    (∏ j in Finset.range k, if j ≠ i then f j else 1) =
      ∏ j in (Finset.range k).erase i, f j := by
  rw [← Finset.mul_prod_erase (Finset.range k)
    (fun j => if j ≠ i then f j else 1) hi]
  rw [if_neg (by simp), one_mul]
  refine Finset.prod_congr rfl ?_
  intro j hj
  rw [if_pos (Finset.ne_of_mem_erase hj)]

theorem getD_map_fb {F : Type} [Field F] (fb : Nat → F)
    (chosen : List (Nat × F)) (j : Nat) (hj : j < chosen.length) :
    (chosen.map (fun sh => fb sh.1)).getD j 0 = fb ((chosen.getD j (0, 0)).1) := by
  have hj2 : j < (chosen.map (fun sh => fb sh.1)).length := by
    rw [List.length_map]
    exact hj
  rw [List.getD_eq_get _ 0 hj2, List.getD_eq_get _ (0, 0) hj, List.get_map]

/-- C1: reconstructing with threshold `k` from any `k` of the shares
produced by `split` returns the secret, whichever `k` shares (in whatever
order) are supplied.  The field operations used by `reconstruct` enter as
hypotheses: `inv` is a right inverse on nonzero elements, `fd u v` is
`from(u) - from(v)`, and the chosen shares have pairwise distinct
x-images under `from`. -/
theorem reconstruct_of_split {F : Type} [Field F] [DecidableEq F]
    (inv : F → F) (fd : Nat → Nat → F) (fb : Nat → F) (secret : F)
    (polynom : List F) (n k : Nat) (chosen : List (Nat × F))
    (hinv : ∀ z : F, z ≠ 0 → z * inv z = 1)
    (hfd : ∀ u v : Nat, fd u v = fb u - fb v)
    (hmem : ∀ sh ∈ chosen, sh ∈ cSplit fb secret polynom n)
    (hlen : chosen.length = k)
    (hdeg : polynom.length < k)
    (hindep : ∀ i j, i < k → j < k →
      fb ((chosen.getD i (0, 0)).1) = fb ((chosen.getD j (0, 0)).1) → i = j) :
    cReconstruct inv fd fb chosen k = secret := by
  have htop : chosen.take k = chosen := by
    rw [← hlen]
    exact List.take_length chosen
  simp only [cReconstruct]
  rw [htop, hlen]
  rw [foldl_add_sum (fun i => (lagrangeStep fd (chosen.map (fun sh => fb sh.1))
    chosen i).1 * (chosen.getD i (0, 0)).2 *
    inv (lagrangeStep fd (chosen.map (fun sh => fb sh.1)) chosen i).2) k]
  have hvinj : Set.InjOn (fun j => fb ((chosen.getD j (0, 0)).1))
      ↑(Finset.range k) := by
    intro i hi j hj he
    simp only [Finset.coe_range, Set.mem_Iio] at hi hj
    exact hindep i j hi hj he
  have hcurve : ∀ i, i < k → (chosen.getD i (0, 0)).2 =
      (Polynomial.C secret + Polynomial.X *
        polynom.foldr (fun p acc => Polynomial.C p + Polynomial.X * acc)
          (0 : Polynomial F)).eval (fb ((chosen.getD i (0, 0)).1)) := by
    intro i hik
    have hik2 : i < chosen.length := by omega
    have hmm : chosen.getD i (0, 0) ∈ chosen := by
      rw [List.getD_eq_get _ (0, 0) hik2]
      exact List.get_mem chosen i hik2
    have h3 := hmem _ hmm
    unfold cSplit at h3
    obtain ⟨idx, hidx, heq⟩ := List.mem_map.mp h3
    have h1 : (chosen.getD i (0, 0)).1 = idx + 1 := by rw [← heq]
    have h2 : (chosen.getD i (0, 0)).2 =
        polyEval secret polynom (fb (idx + 1)) := by rw [← heq]
    rw [h2, h1, polyEval_eq]
  have hterm : ∀ i ∈ Finset.range k,
      (lagrangeStep fd (chosen.map (fun sh => fb sh.1)) chosen i).1 *
        (chosen.getD i (0, 0)).2 *
        inv (lagrangeStep fd (chosen.map (fun sh => fb sh.1)) chosen i).2 =
      (Polynomial.C secret + Polynomial.X *
        polynom.foldr (fun p acc => Polynomial.C p + Polynomial.X * acc)
          (0 : Polynomial F)).eval (fb ((chosen.getD i (0, 0)).1)) *
      (Lagrange.basis (Finset.range k)
        (fun j => fb ((chosen.getD j (0, 0)).1)) i).eval 0 := by
    intro i hi
    have hik : i < k := Finset.mem_range.mp hi
    have hstep : lagrangeStep fd (chosen.map (fun sh => fb sh.1)) chosen i =
        (∏ j in Finset.range k,
          if j ≠ i then (chosen.map (fun sh => fb sh.1)).getD j 0 else 1,
         ∏ j in Finset.range k,
          if j ≠ i then fd (chosen.getD j (0, 0)).1 (chosen.getD i (0, 0)).1
          else 1) := by
      unfold lagrangeStep
      rw [hlen]
      exact foldl_pair_ite_prod (fun j => (chosen.map (fun sh => fb sh.1)).getD j 0)
        (fun j => fd (chosen.getD j (0, 0)).1 (chosen.getD i (0, 0)).1) i k
    have hP1 : (∏ j in Finset.range k,
        if j ≠ i then (chosen.map (fun sh => fb sh.1)).getD j 0 else 1) =
        ∏ j in (Finset.range k).erase i, fb ((chosen.getD j (0, 0)).1) := by
      refine Eq.trans (Finset.prod_congr rfl ?_) (prod_ite_ne_erase k i hi _)
      intro j hj
      by_cases hji : j ≠ i
      · rw [if_pos hji, if_pos hji,
          getD_map_fb fb chosen j (by have := Finset.mem_range.mp hj; omega)]
      · rw [if_neg hji, if_neg hji]
    have hP2 : (∏ j in Finset.range k,
        if j ≠ i then fd (chosen.getD j (0, 0)).1 (chosen.getD i (0, 0)).1
        else 1) =
        ∏ j in (Finset.range k).erase i,
          (fb ((chosen.getD j (0, 0)).1) - fb ((chosen.getD i (0, 0)).1)) := by
      refine Eq.trans (Finset.prod_congr rfl ?_) (prod_ite_ne_erase k i hi _)
      intro j hj
      by_cases hji : j ≠ i
      · rw [if_pos hji, if_pos hji, hfd]
      · rw [if_neg hji, if_neg hji]
    have hD : (∏ j in (Finset.range k).erase i,
        (fb ((chosen.getD j (0, 0)).1) - fb ((chosen.getD i (0, 0)).1))) ≠ 0 := by
      rw [Finset.prod_ne_zero_iff]
      intro j hj
      have hji : j ≠ i := Finset.ne_of_mem_erase hj
      have hjk : j < k := Finset.mem_range.mp (Finset.mem_of_mem_erase hj)
      refine sub_ne_zero_of_ne ?_
      intro he
      exact hji (hindep j i hjk hik he)
    have hinvD := eq_inv_of_mul_eq_one_right (hinv _ hD)
    have hbasis : (Lagrange.basis (Finset.range k)
        (fun j => fb ((chosen.getD j (0, 0)).1)) i).eval 0 =
        (∏ j in (Finset.range k).erase i, fb ((chosen.getD j (0, 0)).1)) *
        (∏ j in (Finset.range k).erase i,
          (fb ((chosen.getD j (0, 0)).1) - fb ((chosen.getD i (0, 0)).1)))⁻¹ := by
      show (∏ j in (Finset.range k).erase i,
        Lagrange.basisDivisor (fb ((chosen.getD i (0, 0)).1))
          (fb ((chosen.getD j (0, 0)).1))).eval 0 = _
      rw [Polynomial.eval_prod, ← Finset.prod_inv_distrib,
        ← Finset.prod_mul_distrib]
      refine Finset.prod_congr rfl ?_
      intro j hj
      unfold Lagrange.basisDivisor
      rw [Polynomial.eval_mul, Polynomial.eval_C, Polynomial.eval_sub,
        Polynomial.eval_X, Polynomial.eval_C, zero_sub]
      rw [show fb ((chosen.getD i (0, 0)).1) - fb ((chosen.getD j (0, 0)).1) =
        -(fb ((chosen.getD j (0, 0)).1) - fb ((chosen.getD i (0, 0)).1)) from
        (neg_sub _ _).symm]
      rw [inv_neg, neg_mul_neg, mul_comm]
    rw [hstep, hcurve i hik]
    show (∏ j in Finset.range k,
        if j ≠ i then (chosen.map (fun sh => fb sh.1)).getD j 0 else 1) * _ *
      inv (∏ j in Finset.range k,
        if j ≠ i then fd (chosen.getD j (0, 0)).1 (chosen.getD i (0, 0)).1
        else 1) = _
    rw [hP1, hP2, hinvD, hbasis]
    ring
  rw [Finset.sum_congr rfl hterm]
  have hdegf := polyOf_degree_lt secret polynom k hdeg
  have hinterp := (Lagrange.eq_interpolate hvinj
    (f := Polynomial.C secret + Polynomial.X *
      polynom.foldr (fun p acc => Polynomial.C p + Polynomial.X * acc)
        (0 : Polynomial F))
    (by rw [Finset.card_range]; exact hdegf)).symm
  have hch : (∑ i in Finset.range k,
      (Polynomial.C secret + Polynomial.X *
        polynom.foldr (fun p acc => Polynomial.C p + Polynomial.X * acc)
          (0 : Polynomial F)).eval (fb ((chosen.getD i (0, 0)).1)) *
      (Lagrange.basis (Finset.range k)
        (fun j => fb ((chosen.getD j (0, 0)).1)) i).eval 0) =
      (Lagrange.interpolate (Finset.range k)
        (fun j => fb ((chosen.getD j (0, 0)).1))
        (fun i => (Polynomial.C secret + Polynomial.X *
          polynom.foldr (fun p acc => Polynomial.C p + Polynomial.X * acc)
            (0 : Polynomial F)).eval (fb ((chosen.getD i (0, 0)).1)))).eval 0 := by
    rw [Lagrange.interpolate_apply, Polynomial.eval_finset_sum]
    refine Finset.sum_congr rfl ?_
    intro i _
    rw [Polynomial.eval_mul, Polynomial.eval_C]
  rw [hch, hinterp, polyOf_eval_zero]

theorem reconstruct_of_split_witness :
    (∀ z : ZMod 2, z ≠ 0 → z * z = 1) ∧
    (∀ sh ∈ [((1 : Nat), (1 : ZMod 2))],
      sh ∈ cSplit (fun x => (x : ZMod 2)) 1 [] 1) ∧
    cReconstruct (fun z => z) (fun u v => (u : ZMod 2) - (v : ZMod 2))
      (fun x => (x : ZMod 2)) [(1, 1)] 1 = 1 :=
  ⟨by decide, by decide,
   reconstruct_of_split (fun z => z) (fun u v => (u : ZMod 2) - (v : ZMod 2))
     (fun x => (x : ZMod 2)) 1 [] 1 1 [(1, 1)]
     (by decide) (fun u v => rfl) (by decide) rfl (by decide)
     (fun i j hi hj _ => by omega)⟩

end Horcrux
